import Mathlib

/-!
# Crouzeix–Raviart lumped mass matrix (libigl)

A shallow embedding of `include/igl/crouzeix_raviart_massmatrix.cpp`.

Conventions of the embedding.

* Scalars are exact rationals (`ℚ`); the C++ code is generic in the scalar
  type `MT` and computes the measures in `double`.
* Element and facet counts are natural numbers; the entries of `EMAP` are
  signed integers, as in `Eigen::VectorXi`.  Counts are assumed small enough
  that `m*ss` does not overflow a C `int`.
* `assert` is live (no `NDEBUG`): a failed assertion ends the call.  The state
  of the output argument `M` at that moment is recorded in the result.  With
  the assertions live the fall-through from `default:` into `case 3:` is never
  taken.
* The collaborators `is_edge_manifold`, `doublearea`, `volume`,
  `oriented_facets` and `unique_simplices` are parameters of the embedding;
  what the specification promises about the last one is the predicate
  `IsUniqueSimplices`.
* `Eigen::SparseMatrix` is seen through its shape and its coefficients;
  `resize` and `setFromTriplets` follow the specification of the builder.
* Next to the exact embedding there is one in `double` arithmetic
  (`crouzeix_raviart_massmatrix64`, for `MT = double`): the same steps with
  every arithmetic result rounded to the nearest `double`.  It shows where
  rounding parts the program from its exact reading.
-/

namespace igl

/-! ## Data model -/

/-- Integer matrix (`Eigen::MatrixXi`): shape and coefficients. -/
structure MatrixXi where
  /-- Number of rows, `rows()`. -/
  rows : Nat
  /-- Number of columns, `cols()`. -/
  cols : Nat
  /-- Coefficient access, `operator()(i,j)`. -/
  coeff : Nat → Nat → Int

/-- Integer column vector (`Eigen::VectorXi`); `size()` is the list length. -/
abbrev VectorXi := List Int

/-- One contribution `Eigen::Triplet<MT>(row, col, value)`. -/
structure Triplet where
  /-- Row index. -/
  row : Int
  /-- Column index. -/
  col : Int
  /-- Scalar value. -/
  value : ℚ
  deriving DecidableEq

/-- The default-constructed triplet `Triplet<MT>()`, which is `(0, 0, 0)`. -/
instance : Inhabited Triplet := ⟨⟨0, 0, 0⟩⟩

/-- Sparse matrix (`Eigen::SparseMatrix<MT>`), seen through its shape and its
coefficient function `coeff(i,j)`. -/
structure SparseMatrix where
  /-- Number of rows. -/
  rows : Nat
  /-- Number of columns. -/
  cols : Nat
  /-- The coefficient at `(i,j)`; zero where nothing is stored. -/
  coeff : Int → Int → ℚ

/-- The ways a call can end other than by returning. -/
inductive Failure
  /-- Line 46: `assert(F.cols() != 3 || is_edge_manifold(F))`. -/
  | not_edge_manifold
  /-- Line 56: `assert(false && "Unsupported simplex size")`. -/
  | unsupported_simplex_size
  /-- Line 66: `assert(EMAP.size() == m*ss)`. -/
  | emap_size_mismatch
  /-- A read `EMAP(i)` with `i` outside `[0, EMAP.size())`. -/
  | emap_index_out_of_range
  /-- A write `MIJV[i]` with `i` outside `[0, MIJV.size())`. -/
  | mijv_index_out_of_range
  /-- A triplet handed to `setFromTriplets` whose row or column lies outside
  the matrix. -/
  | triplet_out_of_range
  deriving DecidableEq

/-- How a call ended, and what the output argument `M` held at that moment. -/
inductive Result where
  /-- The call returned; `M` is the value of the output argument. -/
  | returned (M : SparseMatrix)
  /-- The call was aborted; `M` is the value the output argument had then. -/
  | aborted (why : Failure) (M : SparseMatrix)

/-- The collaborators called by the assembly, over vertex data of type `Pos`:
`is_edge_manifold(F)`, and the per-element outputs of `doublearea(V,F,·)` and
`volume(V,F,·)`.  Each measure has one scalar for every element index, so the
read `TA(f)` with `f < m` cannot fail. -/
structure Collaborators (Pos : Type) where
  /-- Result of `is_edge_manifold(F)`. -/
  is_edge_manifold : MatrixXi → Bool
  /-- Entry `f` of the vector written by `doublearea(V,F,TA)`. -/
  doublearea : Pos → MatrixXi → Nat → ℚ
  /-- Entry `f` of the vector written by `volume(V,F,TA)`. -/
  volume : Pos → MatrixXi → Nat → ℚ

/-- Row `i` of an integer matrix, as the list of its entries. -/
def MatrixXi.row (A : MatrixXi) (i : Nat) : List Int :=
  (List.range A.cols).map (A.coeff i)

/-- The three outputs of `unique_simplices(allE,E,_1,EMAP)`. -/
structure UniqueSimplices where
  /-- The unique facets, `E`. -/
  E : MatrixXi
  /-- The second output (`_1` at the call site), never read. -/
  IA : VectorXi
  /-- The inverse map, `EMAP`. -/
  EMAP : VectorXi

/-- The collaborators of the full pipeline: `oriented_facets(F,allE)` and
`unique_simplices(allE,E,_1,EMAP)`. -/
structure FacetCollaborators where
  /-- The directed facets `allE` of `F`. -/
  oriented_facets : MatrixXi → MatrixXi
  /-- The outputs of the deduplication of a facet list. -/
  unique_simplices : MatrixXi → UniqueSimplices

/-- The three outputs `M`, `E`, `EMAP` of the full pipeline; `M` comes with
the way the assembly ended. -/
structure Outputs where
  /-- How the assembly ended and the content of `M`. -/
  result : Result
  /-- The unique facet list `E`. -/
  E : MatrixXi
  /-- The element-to-facet map `EMAP`. -/
  EMAP : VectorXi

/-! ## Sparse-matrix operations used by the assembly -/

/-- Modelled from the spec: `Eigen::SparseMatrix::resize`, which the source
calls at line 74 and whose code lies outside the repository file.  The result
"is resized to exactly `|E| x |E|` each call, discarding any prior contents":
the shape is set and the matrix is emptied. -/
def SparseMatrix.resize (_M : SparseMatrix) (r c : Nat) : SparseMatrix :=
  ⟨r, c, fun _ _ => 0⟩

/-- A triplet addresses a cell of an `r × c` matrix. -/
def Triplet.inRange (r c : Nat) (t : Triplet) : Bool :=
  decide (0 ≤ t.row) && decide (t.row < (r : Int)) &&
    decide (0 ≤ t.col) && decide (t.col < (c : Int))

/-- Sum of the values of the triplets that sit at `(i,j)`. -/
def sumAt (ts : List Triplet) (i j : Int) : ℚ :=
  ((ts.filter (fun t => decide (t.row = i) && decide (t.col = j))).map Triplet.value).sum

/-- Modelled from the spec: `Eigen::SparseMatrix::setFromTriplets`, which the
source calls at line 75 and whose code lies outside the repository file.  The
builder sums the contributions that share the same `(row,col)`; no row or
column may exist outside the matrix, so a triplet that addresses a cell
outside it is a fatal error (the builder asserts the index range of every
triplet before it stores anything); the former contents are dropped and the
shape is kept. -/
def SparseMatrix.setFromTriplets (M : SparseMatrix) (ts : List Triplet) :
    Except Failure SparseMatrix :=
  if ts.all (Triplet.inRange M.rows M.cols) then
    .ok ⟨M.rows, M.cols, sumAt ts⟩
  else
    .error .triplet_out_of_range

/-! ## The assembly -/

/-- A counted loop `for(int i = 0; i < n; i++) body`, over a state that may
fail. -/
def forLoop {σ : Type} (n : Nat) (body : Nat → σ → Except Failure σ) (s : σ) :
    Except Failure σ :=
  (List.range n).foldlM (fun s i => body i s) s

/-- The `switch(ss)` of lines 53–64: the per-element measure `TA`. -/
def elementMeasure {Pos : Type} (env : Collaborators Pos) (V : Pos) (F : MatrixXi)
    (ss : Nat) : Except Failure (Nat → ℚ) :=
  match ss with
  | 3 => .ok (fun f => env.doublearea V F f * (1 / 2))
  | 4 => .ok (env.volume V F)
  | _ => .error .unsupported_simplex_size

/-- Line 71: `MIJV[f+m*c] = Triplet<MT>(EMAP(f+m*c),EMAP(f+m*c),TA(f)/(double)(ss))`. -/
def tripletStep (EMAP : VectorXi) (TA : Nat → ℚ) (m ss f c : Nat)
    (MIJV : List Triplet) : Except Failure (List Triplet) :=
  match EMAP[f + m * c]? with
  | none => .error .emap_index_out_of_range
  | some e =>
    if f + m * c < MIJV.length then
      .ok (MIJV.set (f + m * c) ⟨e, e, TA f / (ss : ℚ)⟩)
    else
      .error .mijv_index_out_of_range

/-- Lines 67–73: the double loop over elements `f` and local facets `c`. -/
def tripletLoop (EMAP : VectorXi) (TA : Nat → ℚ) (m ss : Nat)
    (MIJV : List Triplet) : Except Failure (List Triplet) :=
  forLoop m (fun f => forLoop ss (fun c => tripletStep EMAP TA m ss f c)) MIJV

/-- The assembly-only entry point
`crouzeix_raviart_massmatrix(V,F,E,EMAP,M)`, lines 35–76. -/
def crouzeix_raviart_massmatrix {Pos : Type} (env : Collaborators Pos) (V : Pos)
    (F E : MatrixXi) (EMAP : VectorXi) (M : SparseMatrix) : Result :=
  if F.cols != 3 || env.is_edge_manifold F then
    let m := F.rows
    let ss := F.cols
    match elementMeasure env V F ss with
    | .error why => .aborted why M
    | .ok TA =>
      let MIJV : List Triplet := List.replicate (ss * m) default
      if EMAP.length = m * ss then
        match tripletLoop EMAP TA m ss MIJV with
        | .error why => .aborted why M
        | .ok MIJV =>
          let M := M.resize E.rows E.rows
          match M.setFromTriplets MIJV with
          | .error why => .aborted why M
          | .ok M => .returned M
      else
        .aborted .emap_size_mismatch M
  else
    .aborted .not_edge_manifold M

/-! ## The loop with a record of its writes -/

/-- The full-pipeline entry point `crouzeix_raviart_massmatrix(V,F,M,E,EMAP)`,
lines 18–32. -/
def crouzeix_raviart_massmatrix_full {Pos : Type} (env : Collaborators Pos)
    (fc : FacetCollaborators) (V : Pos) (F : MatrixXi) (M : SparseMatrix) : Outputs :=
  let allE := fc.oriented_facets F
  let u := fc.unique_simplices allE
  ⟨crouzeix_raviart_massmatrix env V F u.E u.EMAP M, u.E, u.EMAP⟩

/-- The full pipeline as the specification words it: derive the directed
facets of `F` with the Facet Extractor, deduplicate them with the Facet
Deduplicator to get `E` and `EMAP`, then run the assembly-only entry point on
`(V, F, E, EMAP)`; return `M`, `E` and `EMAP`. -/
def computeMassMatrix_spec {Pos : Type} (env : Collaborators Pos)
    (fc : FacetCollaborators) (V : Pos) (F : MatrixXi) (M : SparseMatrix) : Outputs :=
  let directed := fc.oriented_facets F
  let E := (fc.unique_simplices directed).E
  let EMAP := (fc.unique_simplices directed).EMAP
  { result := crouzeix_raviart_massmatrix env V F E EMAP M, E := E, EMAP := EMAP }

/-! ## Contracts of the facet collaborators -/

/-- Rows `k` and `l` of a facet list are the same facet up to orientation:
one lists the vertices of the other in some order. -/
def sameFacet (A : MatrixXi) (k l : Nat) : Prop :=
  (A.row k).Perm (A.row l)

instance (A : MatrixXi) (k l : Nat) : Decidable (sameFacet A k l) :=
  inferInstanceAs (Decidable ((A.row k).Perm (A.row l)))

/-- Modelled from the spec: the contract of the Facet Deduplicator
(`unique_simplices`, whose code lies outside the repository file).  `EMAP` has one entry
for each row of the directed facet list, in input order; its values lie in
`[0,|E|)`; every row of `E` is referenced; two entries of `EMAP` are equal
exactly when the two directed facets are the same up to orientation; and the
row of `E` an entry points to is that facet up to orientation. -/
def IsUniqueSimplices (allE : MatrixXi) (u : UniqueSimplices) : Prop :=
  u.EMAP.length = allE.rows ∧
  u.E.cols = allE.cols ∧
  (∀ x ∈ u.EMAP, 0 ≤ x ∧ x < (u.E.rows : Int)) ∧
  (∀ e : Nat, e < u.E.rows → ∃ k, k < allE.rows ∧ u.EMAP[k]? = some (e : Int)) ∧
  (∀ k : Nat, k < allE.rows → ∀ l : Nat, l < allE.rows →
    (u.EMAP[k]? = u.EMAP[l]? ↔ sameFacet allE k l)) ∧
  (∀ k : Nat, k < allE.rows → (u.E.row (u.EMAP.getD k 0).toNat).Perm (allE.row k))

/-! ## Notions used in the statements and proofs -/

/-- The triplet that line 71 stores in slot `i`. -/
def slotValue (EMAP : VectorXi) (TA : Nat → ℚ) (m ss i : Nat) : Triplet :=
  ⟨EMAP.getD i 0, EMAP.getD i 0, TA (i % m) / (ss : ℚ)⟩

/-- The contents of `MIJV` when the loop stands at element `f`, local facet
`c`: the slots of earlier iterations are filled, the others are default. -/
def partialFill (EMAP : VectorXi) (TA : Nat → ℚ) (m ss f c : Nat) : List Triplet :=
  (List.range (ss * m)).map fun i =>
    if i % m < f ∨ (i % m = f ∧ i / m < c) then slotValue EMAP TA m ss i else default

/-- The triplet list the loop produces: slot `i` holds `slotValue … i`. -/
def assembledTriplets (EMAP : VectorXi) (TA : Nat → ℚ) (m ss : Nat) : List Triplet :=
  (List.range (ss * m)).map (slotValue EMAP TA m ss)

/-- The pairs `(f,c)` with `0 ≤ f < m`, `0 ≤ c < ss` and `EMAP[f+m*c] = e`. -/
def incidentPairs (EMAP : VectorXi) (m ss : Nat) (e : Int) : Finset (Nat × Nat) :=
  (Finset.range m ×ˢ Finset.range ss).filter fun p => EMAP[p.1 + m * p.2]? = some e

/-- Collaborators for the examples: every triangle mesh passes the manifold
check, every doubled area is `2` and every volume is `1`. -/
def unitEnv : Collaborators Unit :=
  ⟨fun _ => true, fun _ _ _ => 2, fun _ _ _ => 1⟩

/-- Collaborators whose manifold check rejects every mesh. -/
def strictEnv : Collaborators Unit :=
  ⟨fun _ => false, fun _ _ _ => 2, fun _ _ _ => 1⟩

/-- One triangle on the vertices `0,1,2`. -/
def oneTriangle : MatrixXi := ⟨1, 3, fun _ j => j⟩

/-- One tetrahedron on the vertices `0,1,2,3`. -/
def oneTet : MatrixXi := ⟨1, 4, fun _ j => j⟩

/-- The three edges `(1,2)`, `(2,0)`, `(0,1)` of `oneTriangle`. -/
def threeEdges : MatrixXi := ⟨3, 2, fun i j => ((i + 1 + j) % 3 : Nat)⟩

/-- The four faces of `oneTet`, face `c` being opposite vertex `c`. -/
def fourFaces : MatrixXi := ⟨4, 3, fun i j => ((i + 1 + j) % 4 : Nat)⟩

/-- Two triangles `(0,1,2)` and `(2,1,3)` sharing the edge between `1` and `2`. -/
def twoTriangles : MatrixXi :=
  ⟨2, 3, fun i j => if i = 0 then (j : Int) else if j = 0 then 2 else if j = 1 then 1 else 3⟩

/-- A facet list with five rows (only its row count matters to the assembly). -/
def fiveEdges : MatrixXi := ⟨5, 2, fun _ _ => 0⟩

/-- One element with five vertex indices `0,…,4` (not a supported simplex). -/
def onePentatope : MatrixXi := ⟨1, 5, fun _ j => j⟩

/-- An empty `0 × 0` sparse matrix. -/
def emptyMatrix : SparseMatrix := ⟨0, 0, fun _ _ => 0⟩

/-- A `1 × 1` sparse matrix holding `7`. -/
def sevenMatrix : SparseMatrix := ⟨1, 1, fun i j => if i = 0 ∧ j = 0 then 7 else 0⟩

/-- An Extractor for the examples: the directed edges of a triangle mesh, the
edge `c` of element `f` being the one opposite to its vertex `c`, in row
`f + m*c`. -/
def triangleEdges (F : MatrixXi) : MatrixXi :=
  ⟨F.rows * 3, 2, fun i k => F.coeff (i % F.rows) ((i / F.rows + 1 + k) % 3)⟩

/-- The rows of a facet list with their entries sorted. -/
def sortedRows (A : MatrixXi) : List (List Int) :=
  (List.range A.rows).map fun i => (A.row i).insertionSort (fun a b => a ≤ b)

/-- The distinct members of a list, in the order they first appear. -/
def firstOccurrences (rows : List (List Int)) : List (List Int) :=
  rows.foldl (fun acc r => if r ∈ acc then acc else acc ++ [r]) []

/-- A Deduplicator for the examples: the unique facets are the distinct
sorted rows in order of first appearance. -/
def dedupFacets (A : MatrixXi) : UniqueSimplices :=
  let rows := sortedRows A
  let reps := firstOccurrences rows
  ⟨⟨reps.length, A.cols, fun i k => (reps.getD i []).getD k 0⟩,
    reps.map (fun r => (rows.indexOf r : Int)),
    rows.map (fun r => (reps.indexOf r : Int))⟩

/-- The facet collaborators used in the examples. -/
def exampleFacets : FacetCollaborators := ⟨triangleEdges, dedupFacets⟩

/-- Collaborators for the examples: doubled areas `2` for element `0` and `4`
for the others. -/
def twoAreasEnv : Collaborators Unit :=
  ⟨fun _ => true, fun _ _ f => if f = 0 then 2 else 4, fun _ _ _ => 1⟩

/-- Collaborators for the examples: doubled areas `4` for element `0` and `2`
for the others. -/
def swappedAreasEnv : Collaborators Unit :=
  ⟨fun _ => true, fun _ _ f => if f = 0 then 4 else 2, fun _ _ _ => 1⟩

/-- Collaborators for the examples over a scale factor `V`: the doubled area
of element `f` is `V * f`, so element `0` is degenerate; every volume is `V`. -/
def scaleEnv : Collaborators ℚ :=
  ⟨fun _ => true, fun V _ f => V * (f : ℚ), fun V _ _ => V⟩

/-! ## The assembly in `double` arithmetic -/

/-- Round to the nearest integer, a tie going to the even neighbour. -/
def roundHalfEven (q : ℚ) : Int :=
  if q - ⌊q⌋ < 1 / 2 then ⌊q⌋
  else if 1 / 2 < q - ⌊q⌋ then ⌊q⌋ + 1
  else if ⌊q⌋ % 2 = 0 then ⌊q⌋ else ⌊q⌋ + 1

/-- Binary exponent of the spacing of `double` values around `x`: `2^(-1074)`
below `2^(-1022)` (subnormal numbers), 52 binary places below the leading bit
otherwise. -/
def ulpExponent (x : ℚ) : Int :=
  if |x| < 2 ^ (-1022 : Int) then -1074 else Int.log 2 |x| - 52

/-- The `double` nearest to `x` (IEEE 754 binary64, round to nearest, ties to
even), for results of finite magnitude; overflow to infinity is left out. -/
def roundToDouble (x : ℚ) : ℚ :=
  (roundHalfEven (x / 2 ^ ulpExponent x) : ℚ) * 2 ^ ulpExponent x

/-- The `switch(ss)` of lines 53–64 in `double` arithmetic: `TA *= 0.5` rounds
each entry. -/
def elementMeasure64 {Pos : Type} (env : Collaborators Pos) (V : Pos) (F : MatrixXi)
    (ss : Nat) : Except Failure (Nat → ℚ) :=
  match ss with
  | 3 => .ok (fun f => roundToDouble (env.doublearea V F f * (1 / 2)))
  | 4 => .ok (env.volume V F)
  | _ => .error .unsupported_simplex_size

/-- Line 71 in `double` arithmetic (`MT = double`, the instantiation of line
80): the quotient `TA(f)/(double)(ss)` is rounded. -/
def tripletStep64 (EMAP : VectorXi) (TA : Nat → ℚ) (m ss f c : Nat)
    (MIJV : List Triplet) : Except Failure (List Triplet) :=
  match EMAP[f + m * c]? with
  | none => .error .emap_index_out_of_range
  | some e =>
    if f + m * c < MIJV.length then
      .ok (MIJV.set (f + m * c) ⟨e, e, roundToDouble (TA f / (ss : ℚ))⟩)
    else
      .error .mijv_index_out_of_range

/-- Lines 67–73 in `double` arithmetic. -/
def tripletLoop64 (EMAP : VectorXi) (TA : Nat → ℚ) (m ss : Nat)
    (MIJV : List Triplet) : Except Failure (List Triplet) :=
  forLoop m (fun f => forLoop ss (fun c => tripletStep64 EMAP TA m ss f c)) MIJV

/-- Sum in `double` arithmetic of the values of the triplets that sit at
`(i,j)`, added one after the other in list order. -/
def sumAt64 (ts : List Triplet) (i j : Int) : ℚ :=
  ((ts.filter (fun t => decide (t.row = i) && decide (t.col = j))).map Triplet.value).foldl
    (fun acc v => roundToDouble (acc + v)) 0

/-- Modelled from the spec: `Eigen::SparseMatrix::setFromTriplets` as in
`SparseMatrix.setFromTriplets`, with the sums taken in `double` arithmetic. -/
def SparseMatrix.setFromTriplets64 (M : SparseMatrix) (ts : List Triplet) :
    Except Failure SparseMatrix :=
  if ts.all (Triplet.inRange M.rows M.cols) then
    .ok ⟨M.rows, M.cols, sumAt64 ts⟩
  else
    .error .triplet_out_of_range

/-- The assembly-only entry point, lines 35–76, in `double` arithmetic: the
same steps as `crouzeix_raviart_massmatrix`, every arithmetic result rounded
to the nearest `double`. -/
def crouzeix_raviart_massmatrix64 {Pos : Type} (env : Collaborators Pos) (V : Pos)
    (F E : MatrixXi) (EMAP : VectorXi) (M : SparseMatrix) : Result :=
  if F.cols != 3 || env.is_edge_manifold F then
    let m := F.rows
    let ss := F.cols
    match elementMeasure64 env V F ss with
    | .error why => .aborted why M
    | .ok TA =>
      let MIJV : List Triplet := List.replicate (ss * m) default
      if EMAP.length = m * ss then
        match tripletLoop64 EMAP TA m ss MIJV with
        | .error why => .aborted why M
        | .ok MIJV =>
          let M := M.resize E.rows E.rows
          match M.setFromTriplets64 MIJV with
          | .error why => .aborted why M
          | .ok M => .returned M
      else
        .aborted .emap_size_mismatch M
  else
    .aborted .not_edge_manifold M

/-- The smallest positive `double`, `2^(-1074)`. -/
def tiny : ℚ := 2 ^ (-1074 : Int)

/-- Collaborators for the examples in `double` arithmetic: every doubled area
is `3 * tiny`. -/
def threeTinyEnv : Collaborators Unit :=
  ⟨fun _ => true, fun _ _ _ => 3 * tiny, fun _ _ _ => tiny⟩

/-- The triplet list the loop produces in `double` arithmetic: slot `i` holds
the rounded share of element `i % m` at the row and column `EMAP(i)`. -/
def assembledTriplets64 (EMAP : VectorXi) (TA : Nat → ℚ) (m ss : Nat) : List Triplet :=
  (List.range (ss * m)).map fun i =>
    ⟨EMAP.getD i 0, EMAP.getD i 0, roundToDouble (TA (i % m) / (ss : ℚ))⟩

/-! ## Lemmas -/

theorem forLoop_zero {σ : Type} (body : Nat → σ → Except Failure σ) (s : σ) :
    forLoop 0 body s = .ok s := rfl

theorem forLoop_succ {σ : Type} (n : Nat) (body : Nat → σ → Except Failure σ) (s : σ) :
    forLoop (n + 1) body s = (forLoop n body s >>= body n) := by
  simp [forLoop, List.range_succ, List.foldlM_append]

theorem partialFill_length (EMAP : VectorXi) (TA : Nat → ℚ) (m ss f c : Nat) :
    (partialFill EMAP TA m ss f c).length = ss * m := by
  simp [partialFill]

theorem slot_lt {m ss f c : Nat} (hf : f < m) (hc : c < ss) : f + m * c < ss * m := by
  calc f + m * c < m + m * c := by omega
    _ = m * (c + 1) := by ring
    _ ≤ m * ss := Nat.mul_le_mul_left m hc
    _ = ss * m := Nat.mul_comm m ss

theorem slot_eq_iff {m f c i : Nat} (hf : f < m) :
    f + m * c = i ↔ (i % m = f ∧ i / m = c) := by
  constructor
  · rintro rfl
    have hm : 0 < m := by omega
    constructor
    · rw [Nat.add_mul_mod_self_left, Nat.mod_eq_of_lt hf]
    · rw [Nat.add_mul_div_left _ _ hm, Nat.div_eq_of_lt hf, Nat.zero_add]
  · rintro ⟨h1, h2⟩
    rw [← h1, ← h2]
    exact Nat.mod_add_div i m

theorem tripletStep_partialFill (EMAP : VectorXi) (TA : Nat → ℚ) {m ss f c : Nat}
    (hlen : EMAP.length = m * ss) (hf : f < m) (hc : c < ss) :
    tripletStep EMAP TA m ss f c (partialFill EMAP TA m ss f c)
      = .ok (partialFill EMAP TA m ss f (c + 1)) := by
  have hlt : f + m * c < ss * m := slot_lt hf hc
  have hlt2 : f + m * c < EMAP.length := by rw [hlen, Nat.mul_comm m ss]; exact hlt
  unfold tripletStep
  rw [List.getElem?_eq_getElem hlt2]
  simp only [partialFill_length, hlt, if_true]
  congr 1
  apply List.ext_getElem
  · simp [partialFill]
  · intro i h1 h2
    have hi : i < ss * m := by simpa [partialFill] using h2
    rw [List.getElem_set]
    simp only [partialFill, List.getElem_map, List.getElem_range]
    by_cases hk : f + m * c = i
    · have hk2 := (slot_eq_iff hf).1 hk
      simp only [hk, if_true]
      rw [if_pos (Or.inr ⟨hk2.1, by omega⟩)]
      subst hk
      simp [slotValue, List.getD_eq_getElem?_getD, List.getElem?_eq_getElem hlt2, hk2.1]
    · rw [if_neg hk]
      have hk3 : ¬ (i % m = f ∧ i / m = c) := fun h => hk ((slot_eq_iff hf).2 h)
      have : (i % m < f ∨ i % m = f ∧ i / m < c + 1) ↔ (i % m < f ∨ i % m = f ∧ i / m < c) := by
        constructor
        · rintro (h | ⟨h, h3⟩)
          · exact Or.inl h
          · exact Or.inr ⟨h, by
              rcases Nat.lt_succ_iff_lt_or_eq.1 h3 with h4 | h4
              · exact h4
              · exact absurd ⟨h, h4⟩ hk3⟩
        · rintro (h | ⟨h, h3⟩)
          · exact Or.inl h
          · exact Or.inr ⟨h, by omega⟩
      simp only [this]

theorem innerLoop_partialFill (EMAP : VectorXi) (TA : Nat → ℚ) {m ss f : Nat}
    (hlen : EMAP.length = m * ss) (hf : f < m) (c : Nat) (hc : c ≤ ss) :
    forLoop c (fun c => tripletStep EMAP TA m ss f c) (partialFill EMAP TA m ss f 0)
      = .ok (partialFill EMAP TA m ss f c) := by
  induction c with
  | zero => rfl
  | succ c ih =>
    rw [forLoop_succ, ih (by omega)]
    exact tripletStep_partialFill EMAP TA hlen hf (by omega)

theorem partialFill_next (EMAP : VectorXi) (TA : Nat → ℚ) (m ss f : Nat) :
    partialFill EMAP TA m ss f ss = partialFill EMAP TA m ss (f + 1) 0 := by
  unfold partialFill
  apply List.map_congr_left
  intro i hi
  have hi2 : i < ss * m := List.mem_range.1 hi
  have hm : 0 < m := by
    rcases Nat.eq_zero_or_pos m with h | h
    · subst h; simp at hi2
    · exact h
  have hdiv : i / m < ss := (Nat.div_lt_iff_lt_mul hm).2 hi2
  have : (i % m < f ∨ i % m = f ∧ i / m < ss) ↔ (i % m < f + 1 ∨ i % m = f + 1 ∧ i / m < 0) := by
    constructor
    · rintro (h | ⟨h, _⟩)
      · exact Or.inl (by omega)
      · exact Or.inl (by omega)
    · rintro (h | ⟨_, h⟩)
      · rcases Nat.lt_succ_iff_lt_or_eq.1 h with h4 | h4
        · exact Or.inl h4
        · exact Or.inr ⟨h4, hdiv⟩
      · exact absurd h (Nat.not_lt_zero _)
  simp only [this]

theorem outerLoop_partialFill (EMAP : VectorXi) (TA : Nat → ℚ) {m ss : Nat}
    (hlen : EMAP.length = m * ss) (f : Nat) (hf : f ≤ m) :
    forLoop f (fun f => forLoop ss (fun c => tripletStep EMAP TA m ss f c))
        (partialFill EMAP TA m ss 0 0)
      = .ok (partialFill EMAP TA m ss f 0) := by
  induction f with
  | zero => rfl
  | succ f ih =>
    rw [forLoop_succ, ih (by omega)]
    show forLoop ss (fun c => tripletStep EMAP TA m ss f c) (partialFill EMAP TA m ss f 0) = _
    rw [innerLoop_partialFill EMAP TA hlen (by omega) ss (Nat.le_refl ss), partialFill_next]

theorem partialFill_start (EMAP : VectorXi) (TA : Nat → ℚ) (m ss : Nat) :
    partialFill EMAP TA m ss 0 0 = List.replicate (ss * m) default := by
  apply List.ext_getElem
  · simp [partialFill]
  · intro i h1 h2
    simp [partialFill]

theorem partialFill_done (EMAP : VectorXi) (TA : Nat → ℚ) (m ss : Nat) :
    partialFill EMAP TA m ss m 0 = (List.range (ss * m)).map (slotValue EMAP TA m ss) := by
  unfold partialFill
  apply List.map_congr_left
  intro i hi
  have hi2 : i < ss * m := List.mem_range.1 hi
  have hm : 0 < m := by
    rcases Nat.eq_zero_or_pos m with h | h
    · subst h; simp at hi2
    · exact h
  rw [if_pos (Or.inl (Nat.mod_lt i hm))]

/-- The double loop never fails when `EMAP` has `m*ss` entries, and leaves in
slot `i` the triplet built from `EMAP(i)` and the measure of element `i % m`. -/
theorem tripletLoop_eq (EMAP : VectorXi) (TA : Nat → ℚ) {m ss : Nat}
    (hlen : EMAP.length = m * ss) :
    tripletLoop EMAP TA m ss (List.replicate (ss * m) default)
      = .ok ((List.range (ss * m)).map (slotValue EMAP TA m ss)) := by
  unfold tripletLoop
  rw [← partialFill_start EMAP TA m ss, outerLoop_partialFill EMAP TA hlen m (Nat.le_refl m),
    partialFill_done]

theorem sumAt_append (l₁ l₂ : List Triplet) (i j : Int) :
    sumAt (l₁ ++ l₂) i j = sumAt l₁ i j + sumAt l₂ i j := by
  simp [sumAt, List.filter_append]

theorem sumAt_singleton (t : Triplet) (i j : Int) :
    sumAt [t] i j = if t.row = i ∧ t.col = j then t.value else 0 := by
  by_cases h : t.row = i ∧ t.col = j
  · simp [sumAt, List.filter_cons, h]
  · rw [if_neg h]
    have : (decide (t.row = i) && decide (t.col = j)) = false := by
      simpa using h
    simp [sumAt, List.filter_cons, this]

theorem sumAt_map_range (g : Nat → Triplet) (n : Nat) (i j : Int) :
    sumAt ((List.range n).map g) i j
      = ∑ k ∈ Finset.range n, if (g k).row = i ∧ (g k).col = j then (g k).value else 0 := by
  induction n with
  | zero => simp [sumAt]
  | succ n ih =>
    rw [List.range_succ, List.map_append, sumAt_append, ih, Finset.sum_range_succ]
    simp [sumAt_singleton]

/-- Re-indexing the slots `k < ss*m` by the pairs `(f,c)` with `k = f + m*c`. -/
theorem sum_slots (h : Nat → ℚ) (m ss : Nat) :
    ∑ k ∈ Finset.range (ss * m), h k
      = ∑ f ∈ Finset.range m, ∑ c ∈ Finset.range ss, h (f + m * c) := by
  rw [Finset.sum_comm]
  induction ss with
  | zero => simp
  | succ ss ih =>
    rw [Finset.sum_range_succ, ← ih, Nat.succ_mul, Finset.sum_range_add]
    congr 1
    apply Finset.sum_congr rfl
    intro f _
    rw [Nat.mul_comm ss m, Nat.add_comm]

theorem all_inRange_assembledTriplets (EMAP : VectorXi) (TA : Nat → ℚ) {m ss n : Nat}
    (hlen : EMAP.length = m * ss) (hrange : ∀ x ∈ EMAP, 0 ≤ x ∧ x < (n : Int)) :
    (assembledTriplets EMAP TA m ss).all (Triplet.inRange n n) = true := by
  rw [List.all_eq_true]
  intro t ht
  obtain ⟨k, hk, rfl⟩ := List.mem_map.1 ht
  have hk2 : k < EMAP.length := by
    rw [hlen, Nat.mul_comm]; exact List.mem_range.1 hk
  have hx := hrange (EMAP[k]) (List.getElem_mem hk2)
  simp [Triplet.inRange, slotValue, List.getD_eq_getElem?_getD, List.getElem?_eq_getElem hk2, hx.1, hx.2]

theorem elementMeasure_isOk {Pos : Type} (env : Collaborators Pos) (V : Pos) (F : MatrixXi)
    {ss : Nat} (hss : ss = 3 ∨ ss = 4) :
    ∃ TA, elementMeasure env V F ss = .ok TA := by
  rcases hss with h | h <;> subst h <;> exact ⟨_, rfl⟩

theorem elementMeasure_error {Pos : Type} (env : Collaborators Pos) (V : Pos) (F : MatrixXi)
    {ss : Nat} (h3 : ss ≠ 3) (h4 : ss ≠ 4) :
    elementMeasure env V F ss = .error .unsupported_simplex_size := by
  unfold elementMeasure
  split
  · exact absurd rfl h3
  · exact absurd rfl h4
  · rfl

/-- A call on a well-formed map that passes the assertion of line 46 returns
the matrix built from the assembled triplets. -/
theorem returned_of_valid {Pos : Type} (env : Collaborators Pos) (V : Pos)
    (F E : MatrixXi) (EMAP : VectorXi) (M0 : SparseMatrix) (TA : Nat → ℚ)
    (hTA : elementMeasure env V F F.cols = .ok TA)
    (hlen : EMAP.length = F.rows * F.cols)
    (hrange : ∀ x ∈ EMAP, 0 ≤ x ∧ x < (E.rows : Int))
    (hman : F.cols = 3 → env.is_edge_manifold F = true) :
    crouzeix_raviart_massmatrix env V F E EMAP M0
      = .returned ⟨E.rows, E.rows, sumAt (assembledTriplets EMAP TA F.rows F.cols)⟩ := by
  have hguard : (F.cols != 3 || env.is_edge_manifold F) = true := by
    by_cases h : F.cols = 3
    · simp [hman h]
    · simp [h]
  unfold crouzeix_raviart_massmatrix
  simp only [hguard, if_true, hTA, hlen, tripletLoop_eq EMAP TA hlen]
  simp only [SparseMatrix.setFromTriplets, SparseMatrix.resize]
  have := all_inRange_assembledTriplets EMAP TA hlen hrange
  unfold assembledTriplets at this
  simp only [this, if_true, assembledTriplets]

/-- A triangle mesh that fails `is_edge_manifold` is stopped at line 46,
before anything else happens. -/
theorem aborted_of_not_manifold {Pos : Type} (env : Collaborators Pos) (V : Pos)
    (F E : MatrixXi) (EMAP : VectorXi) (M0 : SparseMatrix)
    (h3 : F.cols = 3) (hman : env.is_edge_manifold F = false) :
    crouzeix_raviart_massmatrix env V F E EMAP M0 = .aborted .not_edge_manifold M0 := by
  unfold crouzeix_raviart_massmatrix
  simp [h3, hman]

theorem slotValue_slot (EMAP : VectorXi) (TA : Nat → ℚ) {m ss f c : Nat}
    (hlen : EMAP.length = m * ss) (hf : f < m) (hc : c < ss) :
    ∃ x, EMAP[f + m * c]? = some x ∧
      slotValue EMAP TA m ss (f + m * c) = ⟨x, x, TA f / (ss : ℚ)⟩ := by
  have hlt : f + m * c < EMAP.length := by
    rw [hlen, Nat.mul_comm m ss]; exact slot_lt hf hc
  refine ⟨EMAP[f + m * c], List.getElem?_eq_getElem hlt, ?_⟩
  have hmod : (f + m * c) % m = f := ((slot_eq_iff hf).1 rfl).1
  simp [slotValue, List.getD_eq_getElem?_getD, List.getElem?_eq_getElem hlt, hmod]

theorem sumAt_assembled_diag (EMAP : VectorXi) (TA : Nat → ℚ) {m ss : Nat}
    (hlen : EMAP.length = m * ss) (e : Int) :
    sumAt (assembledTriplets EMAP TA m ss) e e
      = ∑ f ∈ Finset.range m, ∑ c ∈ Finset.range ss,
          if EMAP[f + m * c]? = some e then TA f / (ss : ℚ) else 0 := by
  unfold assembledTriplets
  rw [sumAt_map_range, sum_slots]
  apply Finset.sum_congr rfl
  intro f hf
  apply Finset.sum_congr rfl
  intro c hc
  obtain ⟨x, hx, hv⟩ := slotValue_slot EMAP TA hlen (Finset.mem_range.1 hf) (Finset.mem_range.1 hc)
  rw [hv, hx]
  by_cases h : x = e
  · simp [h]
  · simp [h]

theorem sum_incidentPairs (EMAP : VectorXi) (TA : Nat → ℚ) (m ss : Nat) (e : Int) :
    ∑ p ∈ incidentPairs EMAP m ss e, TA p.1 / (ss : ℚ)
      = ∑ f ∈ Finset.range m, ∑ c ∈ Finset.range ss,
          if EMAP[f + m * c]? = some e then TA f / (ss : ℚ) else 0 := by
  unfold incidentPairs
  rw [Finset.sum_filter, Finset.sum_product]

theorem sumAt_off_diag (ts : List Triplet) (hdiag : ∀ t ∈ ts, t.row = t.col)
    {i j : Int} (hij : i ≠ j) : sumAt ts i j = 0 := by
  unfold sumAt
  have : ts.filter (fun t => decide (t.row = i) && decide (t.col = j)) = [] := by
    rw [List.filter_eq_nil_iff]
    intro t ht
    have := hdiag t ht
    simp only [Bool.and_eq_true, decide_eq_true_eq, not_and]
    intro h1 h2
    exact hij (by rw [← h1, ← h2, this])
  rw [this]; rfl

theorem assembledTriplets_diag (EMAP : VectorXi) (TA : Nat → ℚ) (m ss : Nat) :
    ∀ t ∈ assembledTriplets EMAP TA m ss, t.row = t.col := by
  intro t ht
  obtain ⟨k, _, rfl⟩ := List.mem_map.1 ht
  rfl

theorem aborted_of_unsupported {Pos : Type} (env : Collaborators Pos) (V : Pos)
    (F E : MatrixXi) (EMAP : VectorXi) (M0 : SparseMatrix)
    (h3 : F.cols ≠ 3) (h4 : F.cols ≠ 4) :
    crouzeix_raviart_massmatrix env V F E EMAP M0
      = .aborted .unsupported_simplex_size M0 := by
  unfold crouzeix_raviart_massmatrix
  simp [h3, elementMeasure_error env V F h3 h4]

theorem aborted_of_size_mismatch {Pos : Type} (env : Collaborators Pos) (V : Pos)
    (F E : MatrixXi) (EMAP : VectorXi) (M0 : SparseMatrix)
    (hss : F.cols = 3 ∨ F.cols = 4)
    (hman : F.cols = 3 → env.is_edge_manifold F = true)
    (hlen : EMAP.length ≠ F.rows * F.cols) :
    crouzeix_raviart_massmatrix env V F E EMAP M0
      = .aborted .emap_size_mismatch M0 := by
  have hguard : (F.cols != 3 || env.is_edge_manifold F) = true := by
    by_cases h : F.cols = 3
    · simp [hman h]
    · simp [h]
  obtain ⟨TA, hTA⟩ := elementMeasure_isOk env V F hss
  unfold crouzeix_raviart_massmatrix
  simp only [hguard, if_true, hTA, hlen, if_false]

theorem not_all_inRange_assembledTriplets (EMAP : VectorXi) (TA : Nat → ℚ) {m ss n : Nat}
    (hlen : EMAP.length = m * ss) (hbad : ∃ x ∈ EMAP, ¬ (0 ≤ x ∧ x < (n : Int))) :
    (assembledTriplets EMAP TA m ss).all (Triplet.inRange n n) = false := by
  obtain ⟨x, hx, hxbad⟩ := hbad
  obtain ⟨k, hk, rfl⟩ := List.getElem_of_mem hx
  rw [Bool.eq_false_iff]
  intro hall
  rw [List.all_eq_true] at hall
  have hk2 : k < ss * m := by rw [Nat.mul_comm, ← hlen]; exact hk
  have hmem : slotValue EMAP TA m ss k ∈ assembledTriplets EMAP TA m ss :=
    List.mem_map.2 ⟨k, List.mem_range.2 hk2, rfl⟩
  have := hall _ hmem
  simp only [Triplet.inRange, slotValue, List.getD_eq_getElem?_getD,
    List.getElem?_eq_getElem hk, Option.getD_some, Bool.and_eq_true, decide_eq_true_eq] at this
  exact hxbad ⟨this.1.1.1, this.1.1.2⟩

theorem aborted_of_out_of_range {Pos : Type} (env : Collaborators Pos) (V : Pos)
    (F E : MatrixXi) (EMAP : VectorXi) (M0 : SparseMatrix)
    (hss : F.cols = 3 ∨ F.cols = 4)
    (hman : F.cols = 3 → env.is_edge_manifold F = true)
    (hlen : EMAP.length = F.rows * F.cols)
    (hbad : ∃ x ∈ EMAP, ¬ (0 ≤ x ∧ x < (E.rows : Int))) :
    crouzeix_raviart_massmatrix env V F E EMAP M0
      = .aborted .triplet_out_of_range (M0.resize E.rows E.rows) := by
  have hguard : (F.cols != 3 || env.is_edge_manifold F) = true := by
    by_cases h : F.cols = 3
    · simp [hman h]
    · simp [h]
  obtain ⟨TA, hTA⟩ := elementMeasure_isOk env V F hss
  unfold crouzeix_raviart_massmatrix
  simp only [hguard, if_true, hTA, hlen, tripletLoop_eq EMAP TA hlen]
  simp only [SparseMatrix.setFromTriplets, SparseMatrix.resize]
  have := not_all_inRange_assembledTriplets EMAP TA hlen hbad
  unfold assembledTriplets at this
  simp [this]

/-- The five ways a call can end, by the first check that fails. -/
theorem call_cases {Pos : Type} (env : Collaborators Pos) (V : Pos)
    (F E : MatrixXi) (EMAP : VectorXi) (M0 : SparseMatrix) :
    (F.cols = 3 ∧ env.is_edge_manifold F = false ∧
      crouzeix_raviart_massmatrix env V F E EMAP M0 = .aborted .not_edge_manifold M0) ∨
    (F.cols ≠ 3 ∧ F.cols ≠ 4 ∧
      crouzeix_raviart_massmatrix env V F E EMAP M0
        = .aborted .unsupported_simplex_size M0) ∨
    ((F.cols = 3 ∨ F.cols = 4) ∧ (F.cols = 3 → env.is_edge_manifold F = true) ∧
      EMAP.length ≠ F.rows * F.cols ∧
      crouzeix_raviart_massmatrix env V F E EMAP M0 = .aborted .emap_size_mismatch M0) ∨
    ((F.cols = 3 ∨ F.cols = 4) ∧ (F.cols = 3 → env.is_edge_manifold F = true) ∧
      EMAP.length = F.rows * F.cols ∧ (∃ x ∈ EMAP, ¬ (0 ≤ x ∧ x < (E.rows : Int))) ∧
      crouzeix_raviart_massmatrix env V F E EMAP M0
        = .aborted .triplet_out_of_range (M0.resize E.rows E.rows)) ∨
    ((F.cols = 3 ∨ F.cols = 4) ∧ (F.cols = 3 → env.is_edge_manifold F = true) ∧
      EMAP.length = F.rows * F.cols ∧ (∀ x ∈ EMAP, 0 ≤ x ∧ x < (E.rows : Int)) ∧
      ∃ TA, elementMeasure env V F F.cols = .ok TA ∧
        crouzeix_raviart_massmatrix env V F E EMAP M0
          = .returned ⟨E.rows, E.rows, sumAt (assembledTriplets EMAP TA F.rows F.cols)⟩) := by
  by_cases hman : F.cols = 3 → env.is_edge_manifold F = true
  · by_cases hss : F.cols = 3 ∨ F.cols = 4
    · by_cases hlen : EMAP.length = F.rows * F.cols
      · by_cases hrange : ∀ x ∈ EMAP, 0 ≤ x ∧ x < (E.rows : Int)
        · obtain ⟨TA, hTA⟩ := elementMeasure_isOk env V F hss
          exact Or.inr (Or.inr (Or.inr (Or.inr ⟨hss, hman, hlen, hrange, TA, hTA,
            returned_of_valid env V F E EMAP M0 TA hTA hlen hrange hman⟩)))
        · have hbad : ∃ x ∈ EMAP, ¬ (0 ≤ x ∧ x < (E.rows : Int)) := by
            by_contra h
            exact hrange fun x hx => by
              by_contra hx2
              exact h ⟨x, hx, hx2⟩
          exact Or.inr (Or.inr (Or.inr (Or.inl ⟨hss, hman, hlen, hbad,
            aborted_of_out_of_range env V F E EMAP M0 hss hman hlen hbad⟩)))
      · exact Or.inr (Or.inr (Or.inl ⟨hss, hman, hlen,
          aborted_of_size_mismatch env V F E EMAP M0 hss hman hlen⟩))
    · have h3 : F.cols ≠ 3 := fun h => hss (Or.inl h)
      have h4 : F.cols ≠ 4 := fun h => hss (Or.inr h)
      exact Or.inr (Or.inl ⟨h3, h4, aborted_of_unsupported env V F E EMAP M0 h3 h4⟩)
  · have h3 : F.cols = 3 := by
      by_contra h; exact hman (fun h3 => absurd h3 h)
    have hm : env.is_edge_manifold F = false := by
      cases hb : env.is_edge_manifold F
      · rfl
      · exact absurd (fun _ => hb) hman
    exact Or.inl ⟨h3, hm, aborted_of_not_manifold env V F E EMAP M0 h3 hm⟩

/-- A returned matrix is the one built from the assembled triplets, and the
call went through every check. -/
theorem eq_of_returned {Pos : Type} (env : Collaborators Pos) (V : Pos)
    (F E : MatrixXi) (EMAP : VectorXi) (M0 M : SparseMatrix)
    (h : crouzeix_raviart_massmatrix env V F E EMAP M0 = .returned M) :
    (F.cols = 3 ∨ F.cols = 4) ∧ (F.cols = 3 → env.is_edge_manifold F = true) ∧
      EMAP.length = F.rows * F.cols ∧ (∀ x ∈ EMAP, 0 ≤ x ∧ x < (E.rows : Int)) ∧
      ∃ TA, elementMeasure env V F F.cols = .ok TA ∧
        M = ⟨E.rows, E.rows, sumAt (assembledTriplets EMAP TA F.rows F.cols)⟩ := by
  rcases call_cases env V F E EMAP M0 with
    ⟨_, _, h1⟩ | ⟨_, _, h1⟩ | ⟨_, _, _, h1⟩ | ⟨_, _, _, _, h1⟩ | ⟨a, b, c, d, TA, hTA, h1⟩
  · rw [h1] at h; cases h
  · rw [h1] at h; cases h
  · rw [h1] at h; cases h
  · rw [h1] at h; cases h
  · rw [h1] at h
    cases h
    exact ⟨a, b, c, d, TA, hTA, rfl⟩

theorem sum_over_facets_of_share (EMAP : VectorXi) {n k : Nat} (hk : k < EMAP.length)
    (hrange : ∀ x ∈ EMAP, 0 ≤ x ∧ x < (n : Int)) (v : ℚ) :
    ∑ e ∈ Finset.range n, (if EMAP[k]? = some (e : Int) then v else 0) = v := by
  have hx := hrange (EMAP[k]) (List.getElem_mem hk)
  rw [List.getElem?_eq_getElem hk]
  have hmem : (EMAP[k]).toNat ∈ Finset.range n := by
    rw [Finset.mem_range]; omega
  rw [Finset.sum_eq_single_of_mem _ hmem]
  · have : ((EMAP[k]).toNat : Int) = EMAP[k] := Int.toNat_of_nonneg hx.1
    simp [this]
  · intro e _ hne
    have : ¬ (EMAP[k] = (e : Int)) := by
      intro h
      apply hne
      rw [h]; simp
    simp [this]

theorem trace_assembled (EMAP : VectorXi) (TA : Nat → ℚ) {m ss n : Nat}
    (hss : ss ≠ 0) (hlen : EMAP.length = m * ss)
    (hrange : ∀ x ∈ EMAP, 0 ≤ x ∧ x < (n : Int)) :
    ∑ e ∈ Finset.range n, sumAt (assembledTriplets EMAP TA m ss) e e
      = ∑ f ∈ Finset.range m, TA f := by
  simp only [sumAt_assembled_diag EMAP TA hlen]
  rw [Finset.sum_comm]
  apply Finset.sum_congr rfl
  intro f hf
  rw [Finset.sum_comm]
  have hterm : ∀ c ∈ Finset.range ss,
      ∑ e ∈ Finset.range n, (if EMAP[f + m * c]? = some (e : Int) then TA f / (ss : ℚ) else 0)
        = TA f / (ss : ℚ) := by
    intro c hc
    have hlt : f + m * c < EMAP.length := by
      rw [hlen, Nat.mul_comm m ss]
      exact slot_lt (Finset.mem_range.1 hf) (Finset.mem_range.1 hc)
    exact sum_over_facets_of_share EMAP hlt hrange _
  rw [Finset.sum_congr rfl hterm, Finset.sum_const, Finset.card_range, nsmul_eq_mul]
  have : (ss : ℚ) ≠ 0 := Nat.cast_ne_zero.2 hss
  field_simp

theorem sum_indicator_eq_count (l : List Int) (e : Int) (v : ℚ) :
    ∑ k ∈ Finset.range l.length, (if l[k]? = some e then v else 0) = (l.count e : ℚ) * v := by
  induction l with
  | nil => simp
  | cons a l ih =>
    rw [List.length_cons, Finset.sum_range_succ']
    simp only [List.getElem?_cons_succ, List.getElem?_cons_zero, ih, List.count_cons]
    by_cases h : a = e
    · simp [h]; ring
    · simp [h]

theorem mem_of_nodup_of_range (l : List Int) {n : Nat} (hlen : l.length = n)
    (hnodup : l.Nodup) (hrange : ∀ x ∈ l, 0 ≤ x ∧ x < (n : Int)) {e : Nat} (he : e < n) :
    (e : Int) ∈ l := by
  have hsub : l.toFinset ⊆ (Finset.range n).image (fun k : Nat => (k : Int)) := by
    intro x hx
    have h := hrange x (List.mem_toFinset.1 hx)
    rw [Finset.mem_image]
    exact ⟨x.toNat, Finset.mem_range.2 (by omega), Int.toNat_of_nonneg h.1⟩
  have hcard : ((Finset.range n).image (fun k : Nat => (k : Int))).card ≤ l.toFinset.card := by
    rw [List.toFinset_card_of_nodup hnodup, hlen]
    calc ((Finset.range n).image (fun k : Nat => (k : Int))).card
        ≤ (Finset.range n).card := Finset.card_image_le
      _ = n := Finset.card_range n
  have heq := Finset.eq_of_subset_of_card_le hsub hcard
  have : (e : Int) ∈ (Finset.range n).image (fun k : Nat => (k : Int)) :=
    Finset.mem_image.2 ⟨e, Finset.mem_range.2 he, rfl⟩
  rw [← heq] at this
  exact List.mem_toFinset.1 this

theorem single_element_diag (EMAP : VectorXi) (TA : Nat → ℚ) {ss : Nat}
    (hlen : EMAP.length = ss) (hnodup : EMAP.Nodup)
    (hrange : ∀ x ∈ EMAP, 0 ≤ x ∧ x < (ss : Int)) {e : Nat} (he : e < ss) :
    sumAt (assembledTriplets EMAP TA 1 ss) e e = TA 0 / (ss : ℚ) := by
  have hlen1 : EMAP.length = 1 * ss := by rw [hlen, Nat.one_mul]
  rw [sumAt_assembled_diag EMAP TA hlen1, Finset.sum_range_one]
  simp only [Nat.zero_add, Nat.one_mul]
  have h := sum_indicator_eq_count EMAP (e : Int) (TA 0 / (ss : ℚ))
  rw [hlen] at h
  rw [h, List.count_eq_one_of_mem hnodup (mem_of_nodup_of_range EMAP hlen hnodup hrange he)]
  simp

theorem sumAt_assembled_diag_slots (EMAP : VectorXi) (TA : Nat → ℚ) (m ss : Nat) (e : Int) :
    sumAt (assembledTriplets EMAP TA m ss) e e
      = ∑ k ∈ Finset.range (ss * m),
          if EMAP.getD k 0 = e then TA (k % m) / (ss : ℚ) else 0 := by
  unfold assembledTriplets
  rw [sumAt_map_range]
  apply Finset.sum_congr rfl
  intro k _
  simp [slotValue]

theorem card_image_one_coincidence (g : Nat → Int) {N s0 s1 : Nat}
    (h0 : s0 < N) (hne : s0 ≠ s1) (heq : g s0 = g s1)
    (honly : ∀ k l, k < N → l < N → k ≠ l → g k = g l →
      (k = s0 ∧ l = s1) ∨ (k = s1 ∧ l = s0)) :
    ((Finset.range N).image g).card = ((Finset.range N).erase s1).card := by
  have himg : (Finset.range N).image g = ((Finset.range N).erase s1).image g := by
    apply Finset.Subset.antisymm
    · intro x hx
      obtain ⟨k, hk, rfl⟩ := Finset.mem_image.1 hx
      by_cases hks : k = s1
      · rw [hks, ← heq]
        exact Finset.mem_image.2 ⟨s0, Finset.mem_erase.2 ⟨hne, Finset.mem_range.2 h0⟩, rfl⟩
      · exact Finset.mem_image.2 ⟨k, Finset.mem_erase.2 ⟨hks, hk⟩, rfl⟩
    · exact Finset.image_subset_image (Finset.erase_subset _ _)
  rw [himg]
  apply Finset.card_image_of_injOn
  intro k hk l hl hkl
  have hk2 := Finset.mem_erase.1 (Finset.mem_coe.1 hk)
  have hl2 := Finset.mem_erase.1 (Finset.mem_coe.1 hl)
  by_contra hkl2
  rcases honly k l (Finset.mem_range.1 hk2.2) (Finset.mem_range.1 hl2.2) hkl2 hkl with h | h
  · exact hl2.1 h.2
  · exact hk2.1 h.1

theorem card_image_of_onto (EMAP : VectorXi) {n : Nat}
    (hrange : ∀ x ∈ EMAP, 0 ≤ x ∧ x < (n : Int))
    (honto : ∀ e : Nat, e < n → ∃ k, k < EMAP.length ∧ EMAP[k]? = some (e : Int)) :
    ((Finset.range EMAP.length).image (fun k => EMAP.getD k 0)).card = n := by
  have himg : (Finset.range EMAP.length).image (fun k => EMAP.getD k 0)
      = (Finset.range n).image (fun e : Nat => (e : Int)) := by
    apply Finset.Subset.antisymm
    · intro x hx
      obtain ⟨k, hk, rfl⟩ := Finset.mem_image.1 hx
      have hk2 : k < EMAP.length := Finset.mem_range.1 hk
      have hval : EMAP.getD k 0 = EMAP[k] := by
        simp [List.getD_eq_getElem?_getD, List.getElem?_eq_getElem hk2]
      have h := hrange (EMAP[k]) (List.getElem_mem hk2)
      rw [hval]
      exact Finset.mem_image.2 ⟨(EMAP[k]).toNat, Finset.mem_range.2 (by omega),
        Int.toNat_of_nonneg h.1⟩
    · intro x hx
      obtain ⟨e, he, rfl⟩ := Finset.mem_image.1 hx
      obtain ⟨k, hk, hke⟩ := honto e (Finset.mem_range.1 he)
      refine Finset.mem_image.2 ⟨k, Finset.mem_range.2 hk, ?_⟩
      simp [List.getD_eq_getElem?_getD, hke]
  rw [himg, Finset.card_image_of_injective _ Nat.cast_injective, Finset.card_range]

theorem sum_single_slot (g : Nat → Int) (h : Nat → ℚ) {N k0 : Nat} (hk0 : k0 < N)
    (hne : ∀ k, k < N → k ≠ k0 → g k ≠ g k0) :
    ∑ k ∈ Finset.range N, (if g k = g k0 then h k else 0) = h k0 := by
  rw [Finset.sum_eq_single_of_mem k0 (Finset.mem_range.2 hk0)]
  · simp
  · intro k hk hkne
    rw [if_neg (hne k (Finset.mem_range.1 hk) hkne)]

theorem sum_two_slots (g : Nat → Int) (h : Nat → ℚ) {N s0 s1 : Nat}
    (h0 : s0 < N) (h1 : s1 < N) (hne : s0 ≠ s1) (heq : g s0 = g s1)
    (hother : ∀ k, k < N → k ≠ s0 → k ≠ s1 → g k ≠ g s0) :
    ∑ k ∈ Finset.range N, (if g k = g s0 then h k else 0) = h s0 + h s1 := by
  rw [← Finset.add_sum_erase _ _ (Finset.mem_range.2 h0)]
  rw [Finset.sum_eq_single_of_mem s1 (Finset.mem_erase.2 ⟨hne.symm, Finset.mem_range.2 h1⟩)]
  · simp [heq]
  · intro k hk hkne
    have hk2 := Finset.mem_erase.1 hk
    rw [if_neg (hother k (Finset.mem_range.1 hk2.2) hk2.1 hkne)]

/-- The single triangle of area `1` with `EMAP = [0,1,2]`: the call returns a
`3 × 3` matrix whose diagonal entries are `1/3`. -/
theorem oneTriangle_returns :
    ∃ M, crouzeix_raviart_massmatrix unitEnv () oneTriangle threeEdges [0, 1, 2] emptyMatrix
        = .returned M ∧ M.rows = 3 ∧ M.cols = 3 ∧
      M.coeff 0 0 = 1 / 3 ∧ M.coeff 1 1 = 1 / 3 ∧ M.coeff 2 2 = 1 / 3 ∧ M.coeff 0 1 = 0 := by
  refine ⟨_, returned_of_valid unitEnv () oneTriangle threeEdges [0, 1, 2] emptyMatrix
    (fun _ => (2 : ℚ) * (1 / 2)) rfl rfl (by decide) (fun _ => rfl), rfl, rfl, ?_, ?_, ?_, ?_⟩ <;>
  norm_num [sumAt, assembledTriplets, slotValue, oneTriangle, List.range_succ, List.filter_cons]

/-- Two triangles of area `1` with `EMAP = [0,1,1,2,3,4]`: the row referenced
twice receives `2/3`, the others `1/3`. -/
theorem twoTriangles_returns :
    ∃ M, crouzeix_raviart_massmatrix unitEnv () twoTriangles fiveEdges [0, 1, 1, 2, 3, 4]
        emptyMatrix = .returned M ∧ M.rows = 5 ∧
      M.coeff 0 0 = 1 / 3 ∧ M.coeff 1 1 = 2 / 3 ∧ M.coeff 4 4 = 1 / 3 := by
  refine ⟨_, returned_of_valid unitEnv () twoTriangles fiveEdges [0, 1, 1, 2, 3, 4] emptyMatrix
    (fun _ => (2 : ℚ) * (1 / 2)) rfl rfl (by decide) (fun _ => rfl), rfl, ?_, ?_, ?_⟩ <;>
  norm_num [sumAt, assembledTriplets, slotValue, twoTriangles, List.range_succ, List.filter_cons]

/-- The slot `f + m*c` of the assembled triplets holds the share `TA f / ss`
of element `f`, at the row and column `EMAP[f+m*c]`. -/
theorem assembledTriplets_slot (EMAP : VectorXi) (TA : Nat → ℚ) {m ss f c : Nat}
    (hlen : EMAP.length = m * ss) (hf : f < m) (hc : c < ss) :
    ∃ x, EMAP[f + m * c]? = some x ∧
      (assembledTriplets EMAP TA m ss)[f + m * c]? = some ⟨x, x, TA f / (ss : ℚ)⟩ := by
  obtain ⟨x, hx, hv⟩ := slotValue_slot EMAP TA hlen hf hc
  refine ⟨x, hx, ?_⟩
  have hlt : f + m * c < ss * m := slot_lt hf hc
  unfold assembledTriplets
  rw [List.getElem?_map, List.getElem?_range hlt, Option.map_some', hv]

/-- When the simplex size is not 3 the call never consults the manifold
checker: replacing it by any other checker leaves the outcome as it is. -/
theorem checker_irrelevant_of_not_triangle {Pos : Type} (env : Collaborators Pos) (V : Pos)
    (F E : MatrixXi) (EMAP : VectorXi) (M0 : SparseMatrix) (h3 : F.cols ≠ 3)
    (checker : MatrixXi → Bool) :
    crouzeix_raviart_massmatrix ⟨checker, env.doublearea, env.volume⟩ V F E EMAP M0
      = crouzeix_raviart_massmatrix env V F E EMAP M0 := by
  have hg : ∀ b : Bool, (F.cols != 3 || b) = true := by
    intro b; simp [h3]
  have hm : elementMeasure (⟨checker, env.doublearea, env.volume⟩ : Collaborators Pos) V F F.cols
      = elementMeasure env V F F.cols := rfl
  unfold crouzeix_raviart_massmatrix
  simp only [hg, if_true, hm]

theorem sumAt_perm {ts ts' : List Triplet} (h : ts.Perm ts') (i j : Int) :
    sumAt ts i j = sumAt ts' i j := by
  unfold sumAt
  exact ((h.filter _).map _).sum_eq

theorem all_inRange_perm {ts ts' : List Triplet} (h : ts.Perm ts') (r c : Nat) :
    ts.all (Triplet.inRange r c) = ts'.all (Triplet.inRange r c) := by
  rw [Bool.eq_iff_iff, List.all_eq_true, List.all_eq_true]
  exact ⟨fun hall t ht => hall t (h.mem_iff.2 ht), fun hall t ht => hall t (h.mem_iff.1 ht)⟩

theorem setFromTriplets_perm (M : SparseMatrix) {ts ts' : List Triplet} (h : ts.Perm ts') :
    M.setFromTriplets ts = M.setFromTriplets ts' := by
  unfold SparseMatrix.setFromTriplets
  rw [all_inRange_perm h]
  have : sumAt ts = sumAt ts' := funext fun i => funext fun j => sumAt_perm h i j
  rw [this]

theorem sum_reindex_elements (G : Nat → ℚ) (p : Nat → Nat) (m : Nat)
    (hp_lt : ∀ f, f < m → p f < m)
    (hp_inj : ∀ f f', f < m → f' < m → p f = p f' → f = f') :
    ∑ f ∈ Finset.range m, G (p f) = ∑ f ∈ Finset.range m, G f := by
  have hinj : Set.InjOn p (Finset.range m : Set Nat) := by
    intro a ha b hb hab
    exact hp_inj a b (Finset.mem_range.1 (Finset.mem_coe.1 ha))
      (Finset.mem_range.1 (Finset.mem_coe.1 hb)) hab
  have hsub : (Finset.range m).image p ⊆ Finset.range m := by
    intro x hx
    obtain ⟨f, hf, rfl⟩ := Finset.mem_image.1 hx
    exact Finset.mem_range.2 (hp_lt f (Finset.mem_range.1 hf))
  have himg : (Finset.range m).image p = Finset.range m :=
    Finset.eq_of_subset_of_card_le hsub (by rw [Finset.card_image_of_injOn hinj])
  calc ∑ f ∈ Finset.range m, G (p f)
      = ∑ x ∈ (Finset.range m).image p, G x := (Finset.sum_image hinj).symm
    _ = ∑ f ∈ Finset.range m, G f := by rw [himg]

theorem range_of_permuted (EMAP EMAP' : VectorXi) (p : Nat → Nat) {m ss n : Nat}
    (hlen : EMAP.length = m * ss) (hlen' : EMAP'.length = m * ss)
    (hp_lt : ∀ f, f < m → p f < m)
    (hperm : ∀ f, f < m → ∀ c, c < ss → EMAP'[f + m * c]? = EMAP[p f + m * c]?)
    (hrange : ∀ x ∈ EMAP, 0 ≤ x ∧ x < (n : Int)) :
    ∀ x ∈ EMAP', 0 ≤ x ∧ x < (n : Int) := by
  intro x hx
  obtain ⟨k, hk, rfl⟩ := List.getElem_of_mem hx
  have hk2 : k < m * ss := by rw [← hlen']; exact hk
  have hm : 0 < m := by
    rcases Nat.eq_zero_or_pos m with h | h
    · subst h; simp at hk2
    · exact h
  have hc : k / m < ss := by rw [Nat.div_lt_iff_lt_mul hm, Nat.mul_comm]; exact hk2
  have hf : k % m < m := Nat.mod_lt k hm
  have h1 := hperm (k % m) hf (k / m) hc
  rw [Nat.mod_add_div, List.getElem?_eq_getElem hk] at h1
  have hlt : p (k % m) + m * (k / m) < EMAP.length := by
    rw [hlen, Nat.mul_comm m ss]; exact slot_lt (hp_lt _ hf) hc
  rw [List.getElem?_eq_getElem hlt] at h1
  rw [Option.some.inj h1]
  exact hrange _ (List.getElem_mem hlt)

theorem sumAt_assembled_permuted (EMAP EMAP' : VectorXi) (TA TA' : Nat → ℚ) (p : Nat → Nat)
    {m ss : Nat} (hlen : EMAP.length = m * ss) (hlen' : EMAP'.length = m * ss)
    (hp_lt : ∀ f, f < m → p f < m)
    (hp_inj : ∀ f f', f < m → f' < m → p f = p f' → f = f')
    (hTA : ∀ f, f < m → TA' f = TA (p f))
    (hperm : ∀ f, f < m → ∀ c, c < ss → EMAP'[f + m * c]? = EMAP[p f + m * c]?) :
    sumAt (assembledTriplets EMAP' TA' m ss) = sumAt (assembledTriplets EMAP TA m ss) := by
  funext i j
  by_cases hij : i = j
  · subst hij
    rw [sumAt_assembled_diag EMAP' TA' hlen', sumAt_assembled_diag EMAP TA hlen,
      ← sum_reindex_elements (fun f => ∑ c ∈ Finset.range ss,
        if EMAP[f + m * c]? = some i then TA f / (ss : ℚ) else 0) p m hp_lt hp_inj]
    apply Finset.sum_congr rfl
    intro f hf
    apply Finset.sum_congr rfl
    intro c hc
    rw [hperm f (Finset.mem_range.1 hf) c (Finset.mem_range.1 hc),
      hTA f (Finset.mem_range.1 hf)]
  · rw [sumAt_off_diag _ (assembledTriplets_diag EMAP' TA' m ss) hij,
      sumAt_off_diag _ (assembledTriplets_diag EMAP TA m ss) hij]

theorem sumAt_assembled_linear (EMAP : VectorXi) (TA1 TA2 TA3 : Nat → ℚ) (a b : ℚ)
    {m ss : Nat} (hlen : EMAP.length = m * ss)
    (hlin : ∀ f, f < m → TA3 f = a * TA1 f + b * TA2 f) (i j : Int) :
    sumAt (assembledTriplets EMAP TA3 m ss) i j
      = a * sumAt (assembledTriplets EMAP TA1 m ss) i j
        + b * sumAt (assembledTriplets EMAP TA2 m ss) i j := by
  by_cases hij : i = j
  · subst hij
    simp only [sumAt_assembled_diag EMAP _ hlen, Finset.mul_sum, ← Finset.sum_add_distrib]
    apply Finset.sum_congr rfl
    intro f hf
    apply Finset.sum_congr rfl
    intro c _
    rw [hlin f (Finset.mem_range.1 hf)]
    split
    · ring
    · ring
  · rw [sumAt_off_diag _ (assembledTriplets_diag EMAP TA3 m ss) hij,
      sumAt_off_diag _ (assembledTriplets_diag EMAP TA1 m ss) hij,
      sumAt_off_diag _ (assembledTriplets_diag EMAP TA2 m ss) hij]
    ring

theorem sum_incidentPairs_skip_zero (EMAP : VectorXi) (TA : Nat → ℚ) (m ss : Nat) (e : Int)
    {f0 : Nat} (hzero : TA f0 = 0) :
    ∑ p ∈ (incidentPairs EMAP m ss e).filter (fun p => p.1 ≠ f0), TA p.1 / (ss : ℚ)
      = ∑ p ∈ incidentPairs EMAP m ss e, TA p.1 / (ss : ℚ) := by
  apply Finset.sum_filter_of_ne
  intro p _ hp hp0
  apply hp
  rw [hp0, hzero, zero_div]

theorem tiny_pos : 0 < tiny := by
  unfold tiny; positivity

theorem roundHalfEven_intCast (n : Int) : roundHalfEven (n : ℚ) = n := by
  unfold roundHalfEven
  simp

/-- A tie between `n` and `n + 1` goes to the even one. -/
theorem roundHalfEven_tie (n : Int) :
    roundHalfEven ((n : ℚ) + 1 / 2) = if n % 2 = 0 then n else n + 1 := by
  have hf : ⌊(n : ℚ) + 1 / 2⌋ = n :=
    Int.floor_eq_iff.2 ⟨by linarith, by linarith⟩
  unfold roundHalfEven
  rw [hf]
  simp

/-- Below `2^52` spacings of `tiny` the `double` values are the integer
multiples of `tiny`. -/
theorem roundToDouble_subnormal (k : ℚ) (hk : |k| < 2 ^ (52 : Int)) :
    roundToDouble (k * tiny) = (roundHalfEven k : ℚ) * tiny := by
  have htp := tiny_pos
  have hsmall : |k * tiny| < 2 ^ (-1022 : Int) := by
    rw [abs_mul, abs_of_pos htp]
    have h2 : (2 : ℚ) ^ (-1022 : Int) = 2 ^ (52 : Int) * tiny := by
      unfold tiny
      rw [← zpow_add₀ (by norm_num : (2 : ℚ) ≠ 0)]
      norm_num
    rw [h2]
    exact mul_lt_mul_of_pos_right hk htp
  have hu : ulpExponent (k * tiny) = -1074 := by
    unfold ulpExponent
    rw [if_pos hsmall]
  unfold roundToDouble
  rw [hu]
  have : k * tiny / 2 ^ (-1074 : Int) = k := by
    unfold tiny
    field_simp
  rw [this]
  rfl

/-- The loop in `double` arithmetic is the exact loop run on the measures
whose exact shares are the rounded ones. -/
theorem tripletLoop64_eq (EMAP : VectorXi) (TA : Nat → ℚ) {m ss : Nat}
    (hss : ss ≠ 0) (hlen : EMAP.length = m * ss) :
    tripletLoop64 EMAP TA m ss (List.replicate (ss * m) default)
      = .ok (assembledTriplets64 EMAP TA m ss) := by
  have hss2 : (ss : ℚ) ≠ 0 := Nat.cast_ne_zero.2 hss
  have hstep : ∀ f c, tripletStep64 EMAP TA m ss f c
      = tripletStep EMAP (fun f => roundToDouble (TA f / (ss : ℚ)) * (ss : ℚ)) m ss f c := by
    intro f c
    funext MIJV
    unfold tripletStep64 tripletStep
    simp only [mul_div_cancel_right₀ _ hss2]
  have hloop : tripletLoop64 EMAP TA m ss
      = tripletLoop EMAP (fun f => roundToDouble (TA f / (ss : ℚ)) * (ss : ℚ)) m ss := by
    funext MIJV
    unfold tripletLoop64 tripletLoop
    simp only [hstep]
  rw [hloop, tripletLoop_eq EMAP _ hlen]
  unfold assembledTriplets64
  congr 1
  apply List.map_congr_left
  intro i _
  simp only [slotValue, mul_div_cancel_right₀ _ hss2]

theorem returned64_of_valid {Pos : Type} (env : Collaborators Pos) (V : Pos)
    (F E : MatrixXi) (EMAP : VectorXi) (M0 : SparseMatrix) (TA : Nat → ℚ)
    (hss : F.cols ≠ 0)
    (hTA : elementMeasure64 env V F F.cols = .ok TA)
    (hlen : EMAP.length = F.rows * F.cols)
    (hrange : ∀ x ∈ EMAP, 0 ≤ x ∧ x < (E.rows : Int))
    (hman : F.cols = 3 → env.is_edge_manifold F = true) :
    crouzeix_raviart_massmatrix64 env V F E EMAP M0
      = .returned ⟨E.rows, E.rows, sumAt64 (assembledTriplets64 EMAP TA F.rows F.cols)⟩ := by
  have hguard : (F.cols != 3 || env.is_edge_manifold F) = true := by
    by_cases h : F.cols = 3
    · simp [hman h]
    · simp [h]
  have hall : (assembledTriplets64 EMAP TA F.rows F.cols).all (Triplet.inRange E.rows E.rows)
      = true := by
    rw [List.all_eq_true]
    intro t ht
    obtain ⟨k, hk, rfl⟩ := List.mem_map.1 ht
    have hk2 : k < EMAP.length := by
      rw [hlen, Nat.mul_comm]; exact List.mem_range.1 hk
    have hx := hrange (EMAP[k]) (List.getElem_mem hk2)
    simp [Triplet.inRange, List.getD_eq_getElem?_getD, List.getElem?_eq_getElem hk2,
      hx.1, hx.2]
  unfold crouzeix_raviart_massmatrix64
  simp only [hguard, if_true, hTA, hlen, tripletLoop64_eq EMAP TA hss hlen]
  simp only [SparseMatrix.setFromTriplets64, SparseMatrix.resize, hall, if_true]

theorem roundToDouble_tiny : roundToDouble tiny = tiny := by
  have h := roundToDouble_subnormal 1 (by norm_num)
  rw [one_mul] at h
  rw [h]
  have : roundHalfEven 1 = 1 := by
    have := roundHalfEven_intCast 1
    simpa using this
  rw [this]
  simp

/-- Half of the smallest positive `double` is a tie and rounds to zero. -/
theorem roundToDouble_half_tiny : roundToDouble (tiny / 2) = 0 := by
  have h := roundToDouble_subnormal (((0 : Int) : ℚ) + 1 / 2) (abs_lt.2 ⟨by norm_num, by norm_num⟩)
  have e : (((0 : Int) : ℚ) + 1 / 2) * tiny = tiny / 2 := by push_cast; ring
  rw [e, roundHalfEven_tie 0] at h
  rw [h]
  simp

/-- One and a half times the smallest positive `double` is a tie and rounds
to twice it. -/
theorem roundToDouble_three_halves_tiny : roundToDouble (3 * tiny * (1 / 2)) = 2 * tiny := by
  have h := roundToDouble_subnormal (((1 : Int) : ℚ) + 1 / 2) (abs_lt.2 ⟨by norm_num, by norm_num⟩)
  have e : (((1 : Int) : ℚ) + 1 / 2) * tiny = 3 * tiny * (1 / 2) := by push_cast; ring
  rw [e, roundHalfEven_tie 1] at h
  rw [h]
  norm_num

/-- Two thirds of the smallest positive `double` round to it. -/
theorem roundToDouble_two_thirds_tiny : roundToDouble (2 * tiny / 3) = tiny := by
  have h := roundToDouble_subnormal (2 / 3) (abs_lt.2 ⟨by norm_num, by norm_num⟩)
  have e : (2 / 3 : ℚ) * tiny = 2 * tiny / 3 := by ring
  rw [e] at h
  have hf : ⌊(2 / 3 : ℚ)⌋ = 0 := Int.floor_eq_iff.2 ⟨by norm_num, by norm_num⟩
  have hr : roundHalfEven (2 / 3) = 1 := by
    unfold roundHalfEven
    rw [hf]
    norm_num
  rw [h, hr]
  simp

/-- In the normal range the model keeps a representable value as it is. -/
theorem roundToDouble_one : roundToDouble 1 = 1 := by
  have hbig : ¬ (|(1 : ℚ)| < 2 ^ (-1022 : Int)) := by
    rw [abs_one, not_lt]
    exact zpow_le_one_of_nonpos₀ (by norm_num) (by norm_num)
  have hu : ulpExponent 1 = -52 := by
    unfold ulpExponent
    rw [if_neg hbig, abs_one, Int.log_one_right]
    norm_num
  unfold roundToDouble
  rw [hu]
  have e : (1 : ℚ) / 2 ^ (-52 : Int) = (((2 : Int) ^ 52 : Int) : ℚ) := by
    rw [zpow_neg, one_div, inv_inv]
    norm_num
  rw [e, roundHalfEven_intCast]
  rw [zpow_neg]
  norm_num

/-! ## The claims -/

/-- C1. For an assembly-only call with `ss ∈ {3,4}`, `EMAP` of length `m*ss`
and every `EMAP` value in `[0,|E|)`: whenever the call returns a matrix `M`,
each diagonal entry `M[e,e]`, `e < |E|`, is the sum of `TA[f]/ss` over the
pairs `(f,c)` with `EMAP[f+m*c] = e`, where `TA` is the per-element measure;
and the call does return when the assertion of line 46 passes. -/
theorem diagonal_entry_is_sum_of_shares {Pos : Type} (env : Collaborators Pos) (V : Pos)
    (F E : MatrixXi) (EMAP : VectorXi) (M0 : SparseMatrix) (TA : Nat → ℚ)
    (hss : F.cols = 3 ∨ F.cols = 4)
    (hTA : elementMeasure env V F F.cols = .ok TA)
    (hlen : EMAP.length = F.rows * F.cols)
    (hrange : ∀ x ∈ EMAP, 0 ≤ x ∧ x < (E.rows : Int)) :
    (∀ M, crouzeix_raviart_massmatrix env V F E EMAP M0 = .returned M →
      ∀ e : Nat, e < E.rows →
        M.coeff e e = ∑ p ∈ incidentPairs EMAP F.rows F.cols e, TA p.1 / (F.cols : ℚ)) ∧
    ((F.cols = 3 → env.is_edge_manifold F = true) →
      ∃ M, crouzeix_raviart_massmatrix env V F E EMAP M0 = .returned M) := by
  have _ := hss
  constructor
  · intro M hM e _
    obtain ⟨_, _, _, _, TA2, hTA2, rfl⟩ := eq_of_returned env V F E EMAP M0 M hM
    have hEq : TA2 = TA := by rw [hTA] at hTA2; cases hTA2; rfl
    subst hEq
    show sumAt _ _ _ = _
    rw [sumAt_assembled_diag EMAP TA2 hlen, sum_incidentPairs]
  · intro hman
    exact ⟨_, returned_of_valid env V F E EMAP M0 TA hTA hlen hrange hman⟩

/-- Witness for C1: one triangle of area `1` whose three local edges are the
three rows of `E`. -/
theorem diagonal_entry_is_sum_of_shares_witness :
    (∀ M, crouzeix_raviart_massmatrix unitEnv () oneTriangle threeEdges [0, 1, 2] emptyMatrix
        = .returned M →
      ∀ e : Nat, e < threeEdges.rows →
        M.coeff e e = ∑ p ∈ incidentPairs [0, 1, 2] oneTriangle.rows oneTriangle.cols e,
          (fun _ => (2 : ℚ) * (1 / 2)) p.1 / (oneTriangle.cols : ℚ)) ∧
    ((oneTriangle.cols = 3 → unitEnv.is_edge_manifold oneTriangle = true) →
      ∃ M, crouzeix_raviart_massmatrix unitEnv () oneTriangle threeEdges [0, 1, 2] emptyMatrix
        = .returned M) :=
  diagonal_entry_is_sum_of_shares unitEnv () oneTriangle threeEdges [0, 1, 2] emptyMatrix
    (fun _ => (2 : ℚ) * (1 / 2)) (Or.inl rfl) rfl rfl (by decide)

/-- C2. For valid inputs (`ss ∈ {3,4}`, `EMAP` of length `m*ss` with values
in `[0,|E|)`): whenever the call returns `M`, `M[i,j] = 0` for all `i ≠ j` in
`[0,|E|)`; the loop emits no triplet with a row or column outside `[0,|E|)`;
and the call does return when the assertion of line 46 passes. -/
theorem off_diagonal_entries_vanish {Pos : Type} (env : Collaborators Pos) (V : Pos)
    (F E : MatrixXi) (EMAP : VectorXi) (M0 : SparseMatrix) (TA : Nat → ℚ)
    (hss : F.cols = 3 ∨ F.cols = 4)
    (hTA : elementMeasure env V F F.cols = .ok TA)
    (hlen : EMAP.length = F.rows * F.cols)
    (hrange : ∀ x ∈ EMAP, 0 ≤ x ∧ x < (E.rows : Int)) :
    (∀ M, crouzeix_raviart_massmatrix env V F E EMAP M0 = .returned M →
      ∀ i j : Nat, i < E.rows → j < E.rows → i ≠ j → M.coeff i j = 0) ∧
    (∃ MIJV, tripletLoop EMAP TA F.rows F.cols (List.replicate (F.cols * F.rows) default)
        = .ok MIJV ∧
      ∀ t ∈ MIJV, (0 ≤ t.row ∧ t.row < (E.rows : Int)) ∧
        (0 ≤ t.col ∧ t.col < (E.rows : Int))) ∧
    ((F.cols = 3 → env.is_edge_manifold F = true) →
      ∃ M, crouzeix_raviart_massmatrix env V F E EMAP M0 = .returned M) := by
  have _ := hss
  refine ⟨?_, ?_, ?_⟩
  · intro M hM i j _ _ hij
    obtain ⟨_, _, _, _, TA2, _, rfl⟩ := eq_of_returned env V F E EMAP M0 M hM
    show sumAt _ _ _ = 0
    exact sumAt_off_diag _ (assembledTriplets_diag EMAP TA2 F.rows F.cols)
      (fun h => hij (Int.ofNat_inj.1 h))
  · refine ⟨_, tripletLoop_eq EMAP TA hlen, ?_⟩
    intro t ht
    have hall := all_inRange_assembledTriplets EMAP TA hlen hrange
    rw [List.all_eq_true] at hall
    have := hall t ht
    simp only [Triplet.inRange, Bool.and_eq_true, decide_eq_true_eq] at this
    exact ⟨⟨this.1.1.1, this.1.1.2⟩, ⟨this.1.2, this.2⟩⟩
  · intro hman
    exact ⟨_, returned_of_valid env V F E EMAP M0 TA hTA hlen hrange hman⟩

/-- Witness for C2: one tetrahedron of volume `1`, two of whose faces are
mapped to the same row of a four-row `E`. -/
theorem off_diagonal_entries_vanish_witness :
    (∀ M, crouzeix_raviart_massmatrix unitEnv () oneTet fourFaces [0, 1, 1, 3] emptyMatrix
        = .returned M →
      ∀ i j : Nat, i < fourFaces.rows → j < fourFaces.rows → i ≠ j → M.coeff i j = 0) ∧
    (∃ MIJV, tripletLoop [0, 1, 1, 3] (fun _ => (1 : ℚ)) oneTet.rows oneTet.cols
        (List.replicate (oneTet.cols * oneTet.rows) default) = .ok MIJV ∧
      ∀ t ∈ MIJV, (0 ≤ t.row ∧ t.row < (fourFaces.rows : Int)) ∧
        (0 ≤ t.col ∧ t.col < (fourFaces.rows : Int))) ∧
    ((oneTet.cols = 3 → unitEnv.is_edge_manifold oneTet = true) →
      ∃ M, crouzeix_raviart_massmatrix unitEnv () oneTet fourFaces [0, 1, 1, 3] emptyMatrix
        = .returned M) :=
  off_diagonal_entries_vanish unitEnv () oneTet fourFaces [0, 1, 1, 3] emptyMatrix
    (fun _ => (1 : ℚ)) (Or.inr rfl) rfl rfl (by decide)

/-- C3. Conservation: for valid inputs (`ss ∈ {3,4}`, `EMAP` of length `m*ss`
with values in `[0,|E|)`), whenever the call returns `M`, the sum of the
diagonal entries of `M` is the sum of `TA[f]` over the elements `f < m`; and
the call does return when the assertion of line 46 passes. -/
theorem trace_is_total_measure {Pos : Type} (env : Collaborators Pos) (V : Pos)
    (F E : MatrixXi) (EMAP : VectorXi) (M0 : SparseMatrix) (TA : Nat → ℚ)
    (hss : F.cols = 3 ∨ F.cols = 4)
    (hTA : elementMeasure env V F F.cols = .ok TA)
    (hlen : EMAP.length = F.rows * F.cols)
    (hrange : ∀ x ∈ EMAP, 0 ≤ x ∧ x < (E.rows : Int)) :
    (∀ M, crouzeix_raviart_massmatrix env V F E EMAP M0 = .returned M →
      ∑ e ∈ Finset.range E.rows, M.coeff e e = ∑ f ∈ Finset.range F.rows, TA f) ∧
    ((F.cols = 3 → env.is_edge_manifold F = true) →
      ∃ M, crouzeix_raviart_massmatrix env V F E EMAP M0 = .returned M) := by
  constructor
  · intro M hM
    obtain ⟨_, _, _, _, TA2, hTA2, rfl⟩ := eq_of_returned env V F E EMAP M0 M hM
    have hEq : TA2 = TA := by rw [hTA] at hTA2; cases hTA2; rfl
    subst hEq
    have hne : F.cols ≠ 0 := by rcases hss with h | h <;> rw [h] <;> decide
    exact trace_assembled EMAP TA2 hne hlen hrange
  · intro hman
    exact ⟨_, returned_of_valid env V F E EMAP M0 TA hTA hlen hrange hman⟩

/-- Witness for C3: two triangles of area `1` sharing the facet of row `1`. -/
theorem trace_is_total_measure_witness :
    (∀ M, crouzeix_raviart_massmatrix unitEnv () twoTriangles fiveEdges [0, 1, 1, 2, 3, 4]
        emptyMatrix = .returned M →
      ∑ e ∈ Finset.range fiveEdges.rows, M.coeff e e
        = ∑ f ∈ Finset.range twoTriangles.rows, (fun _ => (2 : ℚ) * (1 / 2)) f) ∧
    ((twoTriangles.cols = 3 → unitEnv.is_edge_manifold twoTriangles = true) →
      ∃ M, crouzeix_raviart_massmatrix unitEnv () twoTriangles fiveEdges [0, 1, 1, 2, 3, 4]
        emptyMatrix = .returned M) :=
  trace_is_total_measure unitEnv () twoTriangles fiveEdges [0, 1, 1, 2, 3, 4] emptyMatrix
    (fun _ => (2 : ℚ) * (1 / 2)) (Or.inl rfl) rfl rfl (by decide)

/-- C4. A call whose simplex size `ss = F.cols()` is neither 3 nor 4 is
aborted by the assertion "Unsupported simplex size", and the output matrix
still is what it was before the call. -/
theorem unsupported_size_aborts_untouched {Pos : Type} (env : Collaborators Pos) (V : Pos)
    (F E : MatrixXi) (EMAP : VectorXi) (M0 : SparseMatrix)
    (h3 : F.cols ≠ 3) (h4 : F.cols ≠ 4) :
    crouzeix_raviart_massmatrix env V F E EMAP M0
      = .aborted .unsupported_simplex_size M0 :=
  aborted_of_unsupported env V F E EMAP M0 h3 h4

/-- Witness for C4: a mesh with five indices per element. -/
theorem unsupported_size_aborts_untouched_witness :
    crouzeix_raviart_massmatrix strictEnv () onePentatope fiveEdges [0, 1, 2, 3, 4] sevenMatrix
      = .aborted .unsupported_simplex_size sevenMatrix :=
  unsupported_size_aborts_untouched strictEnv () onePentatope fiveEdges [0, 1, 2, 3, 4]
    sevenMatrix (by decide) (by decide)

/-- C5. Among inputs with `ss ∈ {3,4}` that pass the manifold check and whose
`EMAP` values all lie in `[0,|E|)`, the call is aborted if and only if `EMAP`
does not have exactly `m*ss` entries; the abort then is the assertion of line
66 and the output matrix still is what it was before the call. -/
theorem aborts_iff_emap_size_mismatch {Pos : Type} (env : Collaborators Pos) (V : Pos)
    (F E : MatrixXi) (EMAP : VectorXi) (M0 : SparseMatrix)
    (hss : F.cols = 3 ∨ F.cols = 4)
    (hman : F.cols = 3 → env.is_edge_manifold F = true)
    (hrange : ∀ x ∈ EMAP, 0 ≤ x ∧ x < (E.rows : Int)) :
    ((∃ why M, crouzeix_raviart_massmatrix env V F E EMAP M0 = .aborted why M)
      ↔ EMAP.length ≠ F.rows * F.cols) ∧
    (EMAP.length ≠ F.rows * F.cols →
      crouzeix_raviart_massmatrix env V F E EMAP M0 = .aborted .emap_size_mismatch M0) := by
  constructor
  · constructor
    · rintro ⟨why, M, h⟩ hlen
      obtain ⟨TA, hTA⟩ := elementMeasure_isOk env V F hss
      rw [returned_of_valid env V F E EMAP M0 TA hTA hlen hrange hman] at h
      cases h
    · intro hlen
      exact ⟨_, _, aborted_of_size_mismatch env V F E EMAP M0 hss hman hlen⟩
  · intro hlen
    exact aborted_of_size_mismatch env V F E EMAP M0 hss hman hlen

/-- Witness for C5: one triangle with a two-entry `EMAP`. -/
theorem aborts_iff_emap_size_mismatch_witness :
    ((∃ why M, crouzeix_raviart_massmatrix unitEnv () oneTriangle threeEdges [0, 1] sevenMatrix
        = .aborted why M)
      ↔ [(0 : Int), 1].length ≠ oneTriangle.rows * oneTriangle.cols) ∧
    ([(0 : Int), 1].length ≠ oneTriangle.rows * oneTriangle.cols →
      crouzeix_raviart_massmatrix unitEnv () oneTriangle threeEdges [0, 1] sevenMatrix
        = .aborted .emap_size_mismatch sevenMatrix) :=
  aborts_iff_emap_size_mismatch unitEnv () oneTriangle threeEdges [0, 1] sevenMatrix
    (Or.inl rfl) (fun _ => rfl) (by decide)

/-- C6. If `EMAP` has length `m*ss` but one of its values lies outside
`[0,|E|)`, the call never returns a matrix: it is aborted; and when the
simplex size is supported and the assertion of line 46 passes, the abort is
the out-of-range failure raised while the triplets are turned into `M`. -/
theorem out_of_range_value_aborts {Pos : Type} (env : Collaborators Pos) (V : Pos)
    (F E : MatrixXi) (EMAP : VectorXi) (M0 : SparseMatrix)
    (hlen : EMAP.length = F.rows * F.cols)
    (hbad : ∃ x ∈ EMAP, ¬ (0 ≤ x ∧ x < (E.rows : Int))) :
    (∃ why M, crouzeix_raviart_massmatrix env V F E EMAP M0 = .aborted why M) ∧
    ((F.cols = 3 ∨ F.cols = 4) → (F.cols = 3 → env.is_edge_manifold F = true) →
      ∃ M, crouzeix_raviart_massmatrix env V F E EMAP M0
        = .aborted .triplet_out_of_range M) := by
  constructor
  · rcases call_cases env V F E EMAP M0 with
      ⟨_, _, h1⟩ | ⟨_, _, h1⟩ | ⟨_, _, _, h1⟩ | ⟨_, _, _, _, h1⟩ | ⟨_, _, _, d, _⟩
    · exact ⟨_, _, h1⟩
    · exact ⟨_, _, h1⟩
    · exact ⟨_, _, h1⟩
    · exact ⟨_, _, h1⟩
    · obtain ⟨x, hx, hxbad⟩ := hbad
      exact absurd (d x hx) hxbad
  · intro hss hman
    exact ⟨_, aborted_of_out_of_range env V F E EMAP M0 hss hman hlen hbad⟩

/-- Witness for C6: one triangle, three rows in `E`, and the value `5` in
`EMAP`. -/
theorem out_of_range_value_aborts_witness :
    (∃ why M, crouzeix_raviart_massmatrix unitEnv () oneTriangle threeEdges [0, 1, 5]
        sevenMatrix = .aborted why M) ∧
    ((oneTriangle.cols = 3 ∨ oneTriangle.cols = 4) →
      (oneTriangle.cols = 3 → unitEnv.is_edge_manifold oneTriangle = true) →
      ∃ M, crouzeix_raviart_massmatrix unitEnv () oneTriangle threeEdges [0, 1, 5] sevenMatrix
        = .aborted .triplet_out_of_range M) :=
  out_of_range_value_aborts unitEnv () oneTriangle threeEdges [0, 1, 5] sevenMatrix rfl
    ⟨5, by decide, by decide⟩

/-- C7, as the code has it. Every call ends in one of three ways: it returns
the fully assembled `|E| × |E|` diagonal matrix; or it is aborted by the
manifold assertion, the simplex-size assertion or the `EMAP`-size assertion,
with the output matrix still what it was before the call; or it is aborted for
an out-of-range `EMAP` value after the output matrix has been resized to
`|E| × |E|` and emptied. -/
theorem fully_assembled_or_aborted {Pos : Type} (env : Collaborators Pos) (V : Pos)
    (F E : MatrixXi) (EMAP : VectorXi) (M0 : SparseMatrix) :
    (∃ M TA, crouzeix_raviart_massmatrix env V F E EMAP M0 = .returned M ∧
      elementMeasure env V F F.cols = .ok TA ∧
      M.rows = E.rows ∧ M.cols = E.rows ∧
      (∀ i j : Int, i ≠ j → M.coeff i j = 0) ∧
      (∀ e : Int, M.coeff e e
        = ∑ p ∈ incidentPairs EMAP F.rows F.cols e, TA p.1 / (F.cols : ℚ))) ∨
    (∃ why, crouzeix_raviart_massmatrix env V F E EMAP M0 = .aborted why M0 ∧
      (why = .not_edge_manifold ∨ why = .unsupported_simplex_size ∨
        why = .emap_size_mismatch)) ∨
    (crouzeix_raviart_massmatrix env V F E EMAP M0
        = .aborted .triplet_out_of_range ⟨E.rows, E.rows, fun _ _ => 0⟩ ∧
      ∃ x ∈ EMAP, ¬ (0 ≤ x ∧ x < (E.rows : Int))) := by
  rcases call_cases env V F E EMAP M0 with
    ⟨_, _, h1⟩ | ⟨_, _, h1⟩ | ⟨_, _, _, h1⟩ | ⟨_, _, _, hbad, h1⟩ | ⟨_, _, hlen, _, TA, hTA, h1⟩
  · exact Or.inr (Or.inl ⟨_, h1, Or.inl rfl⟩)
  · exact Or.inr (Or.inl ⟨_, h1, Or.inr (Or.inl rfl)⟩)
  · exact Or.inr (Or.inl ⟨_, h1, Or.inr (Or.inr rfl)⟩)
  · exact Or.inr (Or.inr ⟨h1, hbad⟩)
  · refine Or.inl ⟨_, TA, h1, hTA, rfl, rfl, ?_, ?_⟩
    · intro i j hij
      exact sumAt_off_diag _ (assembledTriplets_diag EMAP TA F.rows F.cols) hij
    · intro e
      show sumAt _ _ _ = _
      rw [sumAt_assembled_diag EMAP TA hlen, sum_incidentPairs]

/-- Counterexample to C7 as stated: one triangle, three rows in `E`, the
value `5` in `EMAP`, and a `1 × 1` output matrix holding `7`.  The call is
aborted, yet the output matrix is by then an empty `3 × 3` matrix, not the
`1 × 1` matrix it was. -/
theorem fully_assembled_or_unchanged_fails :
    crouzeix_raviart_massmatrix unitEnv () oneTriangle threeEdges [0, 1, 5] sevenMatrix
        = .aborted .triplet_out_of_range ⟨3, 3, fun _ _ => 0⟩ ∧
      sevenMatrix.rows = 1 ∧ sevenMatrix.coeff 0 0 = 7 ∧
      ¬ ((∃ M, crouzeix_raviart_massmatrix unitEnv () oneTriangle threeEdges [0, 1, 5]
            sevenMatrix = .returned M) ∨
         (∃ why, crouzeix_raviart_massmatrix unitEnv () oneTriangle threeEdges [0, 1, 5]
            sevenMatrix = .aborted why sevenMatrix)) := by
  have h : crouzeix_raviart_massmatrix unitEnv () oneTriangle threeEdges [0, 1, 5] sevenMatrix
      = .aborted .triplet_out_of_range ⟨3, 3, fun _ _ => 0⟩ :=
    aborted_of_out_of_range unitEnv () oneTriangle threeEdges [0, 1, 5] sevenMatrix
      (Or.inl rfl) (fun _ => rfl) rfl ⟨5, by decide, by decide⟩
  refine ⟨h, rfl, by simp [sevenMatrix], ?_⟩
  rintro (⟨M, hM⟩ | ⟨why, hM⟩)
  · rw [h] at hM; cases hM
  · rw [h] at hM
    injection hM with _ h2
    have h3 : (3 : Nat) = sevenMatrix.rows := congrArg SparseMatrix.rows h2
    exact absurd h3 (by decide)

/-- C8. A call that returns leaves in `M` a matrix with exactly `|E|` rows and
`|E|` columns, and the same call started from any other initial content of the
output matrix returns the very same matrix. -/
theorem result_ignores_prior_contents {Pos : Type} (env : Collaborators Pos) (V : Pos)
    (F E : MatrixXi) (EMAP : VectorXi) (M0 M : SparseMatrix)
    (h : crouzeix_raviart_massmatrix env V F E EMAP M0 = .returned M) :
    M.rows = E.rows ∧ M.cols = E.rows ∧
      ∀ M0' : SparseMatrix, crouzeix_raviart_massmatrix env V F E EMAP M0' = .returned M := by
  obtain ⟨_, hman, hlen, hrange, TA, hTA, rfl⟩ := eq_of_returned env V F E EMAP M0 M h
  exact ⟨rfl, rfl, fun M0' => returned_of_valid env V F E EMAP M0' TA hTA hlen hrange hman⟩

/-- Witness for C8: the single triangle, started from a `1 × 1` matrix. -/
theorem result_ignores_prior_contents_witness :
    (⟨3, 3, sumAt (assembledTriplets [0, 1, 2] (fun _ => (2 : ℚ) * (1 / 2)) 1 3)⟩ :
        SparseMatrix).rows = threeEdges.rows ∧
      (⟨3, 3, sumAt (assembledTriplets [0, 1, 2] (fun _ => (2 : ℚ) * (1 / 2)) 1 3)⟩ :
        SparseMatrix).cols = threeEdges.rows ∧
      ∀ M0' : SparseMatrix,
        crouzeix_raviart_massmatrix unitEnv () oneTriangle threeEdges [0, 1, 2] M0'
          = .returned ⟨3, 3, sumAt (assembledTriplets [0, 1, 2] (fun _ => (2 : ℚ) * (1 / 2)) 1 3)⟩ :=
  result_ignores_prior_contents unitEnv () oneTriangle threeEdges [0, 1, 2] sevenMatrix
    ⟨3, 3, sumAt (assembledTriplets [0, 1, 2] (fun _ => (2 : ℚ) * (1 / 2)) 1 3)⟩
    (returned_of_valid unitEnv () oneTriangle threeEdges [0, 1, 2] sevenMatrix
      (fun _ => (2 : ℚ) * (1 / 2)) rfl rfl (by decide) (fun _ => rfl))

/-- C9. Single element: for `m = 1`, `ss ∈ {3,4}` and an `EMAP` that sends
the `ss` local facets to `ss` distinct rows of `E`, `|E| = ss`, whenever the
call returns `M` every diagonal entry of `M` is the element's measure divided
by `ss`: a third of the triangle's area (half of its doubled area), a quarter
of the tetrahedron's volume; and the call does return when the assertion of
line 46 passes. -/
theorem single_element_equal_shares {Pos : Type} (env : Collaborators Pos) (V : Pos)
    (F E : MatrixXi) (EMAP : VectorXi) (M0 : SparseMatrix)
    (hm : F.rows = 1) (hss : F.cols = 3 ∨ F.cols = 4) (hE : E.rows = F.cols)
    (hlen : EMAP.length = F.cols) (hdistinct : EMAP.Nodup)
    (hrange : ∀ x ∈ EMAP, 0 ≤ x ∧ x < (E.rows : Int)) :
    (∀ M, crouzeix_raviart_massmatrix env V F E EMAP M0 = .returned M →
      ∀ e : Nat, e < E.rows →
        (F.cols = 3 → M.coeff e e = env.doublearea V F 0 * (1 / 2) / 3) ∧
        (F.cols = 4 → M.coeff e e = env.volume V F 0 / 4)) ∧
    ((F.cols = 3 → env.is_edge_manifold F = true) →
      ∃ M, crouzeix_raviart_massmatrix env V F E EMAP M0 = .returned M) := by
  have hlen1 : EMAP.length = F.rows * F.cols := by rw [hm, Nat.one_mul, hlen]
  constructor
  · intro M hM e he
    obtain ⟨_, _, _, _, TA, hTA, rfl⟩ := eq_of_returned env V F E EMAP M0 M hM
    have hrange2 : ∀ x ∈ EMAP, 0 ≤ x ∧ x < (F.cols : Int) := by rw [← hE]; exact hrange
    have hval : sumAt (assembledTriplets EMAP TA F.rows F.cols) e e = TA 0 / (F.cols : ℚ) := by
      rw [hm]
      exact single_element_diag EMAP TA hlen hdistinct hrange2 (by rw [← hE]; exact he)
    constructor
    · intro h3
      show sumAt _ _ _ = _
      rw [hval]
      rw [h3] at hTA
      cases hTA
      rw [h3]; norm_num
    · intro h4
      show sumAt _ _ _ = _
      rw [hval]
      rw [h4] at hTA
      cases hTA
      rw [h4]; norm_num
  · intro hman
    obtain ⟨TA, hTA⟩ := elementMeasure_isOk env V F hss
    exact ⟨_, returned_of_valid env V F E EMAP M0 TA hTA hlen1 hrange hman⟩

/-- Witness for C9: one tetrahedron whose four faces are the four rows of
`E`, listed in the order `2,0,3,1`. -/
theorem single_element_equal_shares_witness :
    (∀ M, crouzeix_raviart_massmatrix unitEnv () oneTet fourFaces [2, 0, 3, 1] emptyMatrix
        = .returned M →
      ∀ e : Nat, e < fourFaces.rows →
        (oneTet.cols = 3 → M.coeff e e = unitEnv.doublearea () oneTet 0 * (1 / 2) / 3) ∧
        (oneTet.cols = 4 → M.coeff e e = unitEnv.volume () oneTet 0 / 4)) ∧
    ((oneTet.cols = 3 → unitEnv.is_edge_manifold oneTet = true) →
      ∃ M, crouzeix_raviart_massmatrix unitEnv () oneTet fourFaces [2, 0, 3, 1] emptyMatrix
        = .returned M) :=
  single_element_equal_shares unitEnv () oneTet fourFaces [2, 0, 3, 1] emptyMatrix
    rfl (Or.inr rfl) rfl rfl (by decide) (by decide)

/-- C10. Two triangles sharing exactly one edge, through the full pipeline,
with an Extractor that returns `m*ss` directed facets and a Deduplicator that
meets its contract.  The six directed edges coincide up to orientation only
in the pair formed by edge `c0` of the first triangle and edge `c1` of the
second.  Then `E` has 5 rows and `EMAP` 6 entries; whenever the assembly
returns `M`, the diagonal entry at the shared edge's row is `A1/3 + A2/3`, the
entries at the other two edges of the first triangle are `A1/3` and those at
the other two edges of the second are `A2/3`, where `A1 = TA 0`, `A2 = TA 1`
are the two areas; and the assembly does return when the manifold assertion
passes. -/
theorem two_triangles_sharing_one_edge {Pos : Type} (env : Collaborators Pos)
    (fc : FacetCollaborators) (V : Pos) (F : MatrixXi) (M0 : SparseMatrix)
    (TA : Nat → ℚ) (c0 c1 : Nat)
    (hm : F.rows = 2) (hss : F.cols = 3)
    (hTA : elementMeasure env V F F.cols = .ok TA)
    (hrows : (fc.oriented_facets F).rows = F.rows * F.cols)
    (huniq : IsUniqueSimplices (fc.oriented_facets F)
      (fc.unique_simplices (fc.oriented_facets F)))
    (hc0 : c0 < 3) (hc1 : c1 < 3)
    (hshared : sameFacet (fc.oriented_facets F) (0 + 2 * c0) (1 + 2 * c1))
    (honly : ∀ k : Nat, k < 6 → ∀ l : Nat, l < 6 → sameFacet (fc.oriented_facets F) k l →
      k = l ∨ (k = 0 + 2 * c0 ∧ l = 1 + 2 * c1) ∨ (k = 1 + 2 * c1 ∧ l = 0 + 2 * c0)) :
    (crouzeix_raviart_massmatrix_full env fc V F M0).E.rows = 5 ∧
    (crouzeix_raviart_massmatrix_full env fc V F M0).EMAP.length = 6 ∧
    (∀ M, (crouzeix_raviart_massmatrix_full env fc V F M0).result = .returned M →
      (M.coeff ((crouzeix_raviart_massmatrix_full env fc V F M0).EMAP.getD (0 + 2 * c0) 0)
          ((crouzeix_raviart_massmatrix_full env fc V F M0).EMAP.getD (0 + 2 * c0) 0)
        = TA 0 / 3 + TA 1 / 3) ∧
      (∀ c, c < 3 → c ≠ c0 →
        M.coeff ((crouzeix_raviart_massmatrix_full env fc V F M0).EMAP.getD (0 + 2 * c) 0)
            ((crouzeix_raviart_massmatrix_full env fc V F M0).EMAP.getD (0 + 2 * c) 0)
          = TA 0 / 3) ∧
      (∀ c, c < 3 → c ≠ c1 →
        M.coeff ((crouzeix_raviart_massmatrix_full env fc V F M0).EMAP.getD (1 + 2 * c) 0)
            ((crouzeix_raviart_massmatrix_full env fc V F M0).EMAP.getD (1 + 2 * c) 0)
          = TA 1 / 3)) ∧
    (env.is_edge_manifold F = true →
      ∃ M, (crouzeix_raviart_massmatrix_full env fc V F M0).result = .returned M) := by
  obtain ⟨hlenE, _, hrange, honto, hiff, _⟩ := huniq
  simp only [crouzeix_raviart_massmatrix_full]
  generalize fc.unique_simplices (fc.oriented_facets F) = u at *
  have hsix : (fc.oriented_facets F).rows = 6 := by rw [hrows, hm, hss]
  have hlen6 : u.EMAP.length = 6 := by rw [hlenE, hsix]
  have hlen : u.EMAP.length = F.rows * F.cols := by rw [hlenE, hrows]
  have hg : ∀ k l : Nat, k < 6 → l < 6 →
      (u.EMAP.getD k 0 = u.EMAP.getD l 0 ↔ sameFacet (fc.oriented_facets F) k l) := by
    intro k l hk hl
    rw [← hiff k (by omega) l (by omega)]
    have hk2 : k < u.EMAP.length := by omega
    have hl2 : l < u.EMAP.length := by omega
    simp [List.getD_eq_getElem?_getD, List.getElem?_eq_getElem hk2,
      List.getElem?_eq_getElem hl2]
  have hs0 : 0 + 2 * c0 < 6 := by omega
  have hs1 : 1 + 2 * c1 < 6 := by omega
  have hs01 : 0 + 2 * c0 ≠ 1 + 2 * c1 := by omega
  have heq : u.EMAP.getD (0 + 2 * c0) 0 = u.EMAP.getD (1 + 2 * c1) 0 :=
    (hg _ _ hs0 hs1).2 hshared
  have honly2 : ∀ k l, k < 6 → l < 6 → k ≠ l → u.EMAP.getD k 0 = u.EMAP.getD l 0 →
      (k = 0 + 2 * c0 ∧ l = 1 + 2 * c1) ∨ (k = 1 + 2 * c1 ∧ l = 0 + 2 * c0) :=
    fun k l hk hl hkl h => (honly k hk l hl ((hg k l hk hl).1 h)).resolve_left hkl
  have hdiag : ∀ M, crouzeix_raviart_massmatrix env V F u.E u.EMAP M0 = .returned M →
      ∀ e : Int, M.coeff e e
        = ∑ k ∈ Finset.range 6, if u.EMAP.getD k 0 = e then TA (k % 2) / 3 else 0 := by
    intro M hM e
    obtain ⟨_, _, _, _, TA2, hTA2, rfl⟩ := eq_of_returned env V F u.E u.EMAP M0 M hM
    have hEq : TA2 = TA := by rw [hTA] at hTA2; cases hTA2; rfl
    subst hEq
    show sumAt _ _ _ = _
    rw [sumAt_assembled_diag_slots, hm, hss]
    norm_num
  refine ⟨?_, hlen6, ?_, ?_⟩
  · have h1 := card_image_of_onto u.EMAP hrange (by rw [hlenE]; exact honto)
    rw [hlen6] at h1
    rw [← h1, card_image_one_coincidence (fun k => u.EMAP.getD k 0) hs0 hs01 heq honly2,
      Finset.card_erase_of_mem (Finset.mem_range.2 hs1), Finset.card_range]
  · intro M hM
    refine ⟨?_, ?_, ?_⟩
    · rw [hdiag M hM]
      have := sum_two_slots (fun k => u.EMAP.getD k 0) (fun k => TA (k % 2) / 3)
        hs0 hs1 hs01 heq (by
          intro k hk hk0 hk1 h
          rcases honly2 k _ hk hs0 hk0 h with h2 | h2
          · exact hk0 h2.1
          · exact hk1 h2.1)
      simp only at this
      rw [this]
      have e0 : (0 + 2 * c0) % 2 = 0 := by omega
      have e1 : (1 + 2 * c1) % 2 = 1 := by omega
      rw [e0, e1]
    · intro c hc hcc
      rw [hdiag M hM]
      have := sum_single_slot (fun k => u.EMAP.getD k 0) (fun k => TA (k % 2) / 3)
        (show 0 + 2 * c < 6 by omega) (by
          intro k hk hkne h
          rcases honly2 k _ hk (by omega) hkne h with h2 | h2 <;> omega)
      simp only at this
      rw [this]
      have e0 : (0 + 2 * c) % 2 = 0 := by omega
      rw [e0]
    · intro c hc hcc
      rw [hdiag M hM]
      have := sum_single_slot (fun k => u.EMAP.getD k 0) (fun k => TA (k % 2) / 3)
        (show 1 + 2 * c < 6 by omega) (by
          intro k hk hkne h
          rcases honly2 k _ hk (by omega) hkne h with h2 | h2 <;> omega)
      simp only at this
      rw [this]
      have e1 : (1 + 2 * c) % 2 = 1 := by omega
      rw [e1]
  · intro hman
    exact ⟨_, returned_of_valid env V F u.E u.EMAP M0 TA hTA hlen hrange (fun _ => hman)⟩

/-- Witness for C10: the triangles `(0,1,2)` and `(2,1,3)`, of area `1` each,
share the edge between the vertices `1` and `2`: edge `0` of the first, edge
`2` of the second. -/
theorem two_triangles_sharing_one_edge_witness :
    (crouzeix_raviart_massmatrix_full unitEnv exampleFacets () twoTriangles emptyMatrix).E.rows
      = 5 ∧
    (crouzeix_raviart_massmatrix_full unitEnv exampleFacets () twoTriangles
      emptyMatrix).EMAP.length = 6 ∧
    (∀ M, (crouzeix_raviart_massmatrix_full unitEnv exampleFacets () twoTriangles
        emptyMatrix).result = .returned M →
      (M.coeff ((crouzeix_raviart_massmatrix_full unitEnv exampleFacets () twoTriangles
            emptyMatrix).EMAP.getD (0 + 2 * 0) 0)
          ((crouzeix_raviart_massmatrix_full unitEnv exampleFacets () twoTriangles
            emptyMatrix).EMAP.getD (0 + 2 * 0) 0)
        = (fun _ => (2 : ℚ) * (1 / 2)) 0 / 3 + (fun _ => (2 : ℚ) * (1 / 2)) 1 / 3) ∧
      (∀ c, c < 3 → c ≠ 0 →
        M.coeff ((crouzeix_raviart_massmatrix_full unitEnv exampleFacets () twoTriangles
              emptyMatrix).EMAP.getD (0 + 2 * c) 0)
            ((crouzeix_raviart_massmatrix_full unitEnv exampleFacets () twoTriangles
              emptyMatrix).EMAP.getD (0 + 2 * c) 0)
          = (fun _ => (2 : ℚ) * (1 / 2)) 0 / 3) ∧
      (∀ c, c < 3 → c ≠ 2 →
        M.coeff ((crouzeix_raviart_massmatrix_full unitEnv exampleFacets () twoTriangles
              emptyMatrix).EMAP.getD (1 + 2 * c) 0)
            ((crouzeix_raviart_massmatrix_full unitEnv exampleFacets () twoTriangles
              emptyMatrix).EMAP.getD (1 + 2 * c) 0)
          = (fun _ => (2 : ℚ) * (1 / 2)) 1 / 3)) ∧
    (unitEnv.is_edge_manifold twoTriangles = true →
      ∃ M, (crouzeix_raviart_massmatrix_full unitEnv exampleFacets () twoTriangles
        emptyMatrix).result = .returned M) :=
  two_triangles_sharing_one_edge unitEnv exampleFacets () twoTriangles emptyMatrix
    (fun _ => (2 : ℚ) * (1 / 2)) 0 2 rfl rfl rfl rfl
    (by unfold IsUniqueSimplices; decide) (by decide) (by decide) (by decide) (by decide)

/-- C11, in exact arithmetic.  Dispatch on the simplex size, for an input with
`EMAP` of length `m*ss` and values in `[0,|E|)`.  For `ss = 3` the measure the
assembly uses is `0.5` times the entry of `doublearea`; the triplet of every
slot `f + m*c` carries `doublearea[f]/6`; the call builds `M` from exactly
these triplets, so that every diagonal entry of the returned matrix is the sum
of `doublearea[f]/6` over the incident pairs `(f,c)`; and the call does return
when the manifold assertion passes.  For `ss = 4` the same holds with the
entry of `volume`, unscaled, and the share `volume[f]/4`, and the call always
returns. -/
theorem measure_dispatch {Pos : Type} (env : Collaborators Pos) (V : Pos)
    (F E : MatrixXi) (EMAP : VectorXi) (M0 : SparseMatrix)
    (hlen : EMAP.length = F.rows * F.cols)
    (hrange : ∀ x ∈ EMAP, 0 ≤ x ∧ x < (E.rows : Int)) :
    (F.cols = 3 → ∃ TA MIJV, elementMeasure env V F F.cols = .ok TA ∧
      (∀ f, TA f = env.doublearea V F f * (1 / 2)) ∧
      tripletLoop EMAP TA F.rows F.cols (List.replicate (F.cols * F.rows) default)
        = .ok MIJV ∧
      (∀ f, f < F.rows → ∀ c, c < 3 →
        ∃ t, MIJV[f + F.rows * c]? = some t ∧ t.value = env.doublearea V F f / 6) ∧
      (∀ M, crouzeix_raviart_massmatrix env V F E EMAP M0 = .returned M →
        (M0.resize E.rows E.rows).setFromTriplets MIJV = .ok M ∧
        ∀ e : Int, M.coeff e e
          = ∑ p ∈ incidentPairs EMAP F.rows F.cols e, env.doublearea V F p.1 / 6) ∧
      (env.is_edge_manifold F = true →
        ∃ M, crouzeix_raviart_massmatrix env V F E EMAP M0 = .returned M)) ∧
    (F.cols = 4 → ∃ TA MIJV, elementMeasure env V F F.cols = .ok TA ∧
      (∀ f, TA f = env.volume V F f) ∧
      tripletLoop EMAP TA F.rows F.cols (List.replicate (F.cols * F.rows) default)
        = .ok MIJV ∧
      (∀ f, f < F.rows → ∀ c, c < 4 →
        ∃ t, MIJV[f + F.rows * c]? = some t ∧ t.value = env.volume V F f / 4) ∧
      (∀ M, crouzeix_raviart_massmatrix env V F E EMAP M0 = .returned M →
        (M0.resize E.rows E.rows).setFromTriplets MIJV = .ok M ∧
        ∀ e : Int, M.coeff e e
          = ∑ p ∈ incidentPairs EMAP F.rows F.cols e, env.volume V F p.1 / 4) ∧
      ∃ M, crouzeix_raviart_massmatrix env V F E EMAP M0 = .returned M) := by
  have hbuild : ∀ TA : Nat → ℚ,
      (M0.resize E.rows E.rows).setFromTriplets (assembledTriplets EMAP TA F.rows F.cols)
        = .ok ⟨E.rows, E.rows, sumAt (assembledTriplets EMAP TA F.rows F.cols)⟩ := by
    intro TA
    have hall := all_inRange_assembledTriplets EMAP TA hlen hrange
    simp only [SparseMatrix.setFromTriplets, SparseMatrix.resize, hall, if_true]
  constructor
  · intro h3
    have hTA : elementMeasure env V F F.cols
        = .ok (fun f => env.doublearea V F f * (1 / 2)) := by rw [h3]; rfl
    refine ⟨fun f => env.doublearea V F f * (1 / 2), _, hTA, fun _ => rfl,
      tripletLoop_eq EMAP _ hlen, ?_, ?_, ?_⟩
    · intro f hf c hc
      obtain ⟨x, _, hx⟩ := assembledTriplets_slot EMAP
        (fun f => env.doublearea V F f * (1 / 2)) hlen hf (by rw [h3]; exact hc)
      refine ⟨_, hx, ?_⟩
      show env.doublearea V F f * (1 / 2) / ((F.cols : Nat) : ℚ) = _
      rw [h3]; norm_num; ring
    · intro M hM
      obtain ⟨_, _, _, _, TA2, hTA2, rfl⟩ := eq_of_returned env V F E EMAP M0 M hM
      have hEq : TA2 = fun f => env.doublearea V F f * (1 / 2) := by
        rw [hTA] at hTA2; cases hTA2; rfl
      subst hEq
      refine ⟨hbuild _, fun e => ?_⟩
      show sumAt _ _ _ = _
      rw [sumAt_assembled_diag EMAP _ hlen, ← sum_incidentPairs]
      apply Finset.sum_congr rfl
      intro p _
      rw [h3]; norm_num; ring
    · intro hman
      exact ⟨_, returned_of_valid env V F E EMAP M0 _ hTA hlen hrange (fun _ => hman)⟩
  · intro h4
    have hTA : elementMeasure env V F F.cols = .ok (env.volume V F) := by rw [h4]; rfl
    refine ⟨env.volume V F, _, hTA, fun _ => rfl, tripletLoop_eq EMAP _ hlen, ?_, ?_, ?_⟩
    · intro f hf c hc
      obtain ⟨x, _, hx⟩ := assembledTriplets_slot EMAP (env.volume V F) hlen hf
        (by rw [h4]; exact hc)
      refine ⟨_, hx, ?_⟩
      show env.volume V F f / ((F.cols : Nat) : ℚ) = _
      rw [h4]; norm_num
    · intro M hM
      obtain ⟨_, _, _, _, TA2, hTA2, rfl⟩ := eq_of_returned env V F E EMAP M0 M hM
      have hEq : TA2 = env.volume V F := by rw [hTA] at hTA2; cases hTA2; rfl
      subst hEq
      refine ⟨hbuild _, fun e => ?_⟩
      show sumAt _ _ _ = _
      rw [sumAt_assembled_diag EMAP _ hlen, ← sum_incidentPairs]
      apply Finset.sum_congr rfl
      intro p _
      rw [h4]; norm_num
    · exact ⟨_, returned_of_valid env V F E EMAP M0 _ hTA hlen hrange
        (fun h => absurd h (by rw [h4]; decide))⟩

/-- Witness for C11: the single triangle of doubled area `2` for the first
branch, the single tetrahedron of volume `1` for the second. -/
theorem measure_dispatch_witness :
    (∃ TA MIJV, elementMeasure unitEnv () oneTriangle oneTriangle.cols = .ok TA ∧
      (∀ f, TA f = unitEnv.doublearea () oneTriangle f * (1 / 2)) ∧
      tripletLoop [0, 1, 2] TA oneTriangle.rows oneTriangle.cols
        (List.replicate (oneTriangle.cols * oneTriangle.rows) default) = .ok MIJV ∧
      (∀ f, f < oneTriangle.rows → ∀ c, c < 3 →
        ∃ t, MIJV[f + oneTriangle.rows * c]? = some t ∧
          t.value = unitEnv.doublearea () oneTriangle f / 6) ∧
      (∀ M, crouzeix_raviart_massmatrix unitEnv () oneTriangle threeEdges [0, 1, 2]
          emptyMatrix = .returned M →
        (emptyMatrix.resize threeEdges.rows threeEdges.rows).setFromTriplets MIJV = .ok M ∧
        ∀ e : Int, M.coeff e e
          = ∑ p ∈ incidentPairs [0, 1, 2] oneTriangle.rows oneTriangle.cols e,
              unitEnv.doublearea () oneTriangle p.1 / 6) ∧
      (unitEnv.is_edge_manifold oneTriangle = true →
        ∃ M, crouzeix_raviart_massmatrix unitEnv () oneTriangle threeEdges [0, 1, 2]
          emptyMatrix = .returned M)) ∧
    (∃ TA MIJV, elementMeasure unitEnv () oneTet oneTet.cols = .ok TA ∧
      (∀ f, TA f = unitEnv.volume () oneTet f) ∧
      tripletLoop [0, 1, 2, 3] TA oneTet.rows oneTet.cols
        (List.replicate (oneTet.cols * oneTet.rows) default) = .ok MIJV ∧
      (∀ f, f < oneTet.rows → ∀ c, c < 4 →
        ∃ t, MIJV[f + oneTet.rows * c]? = some t ∧
          t.value = unitEnv.volume () oneTet f / 4) ∧
      (∀ M, crouzeix_raviart_massmatrix unitEnv () oneTet fourFaces [0, 1, 2, 3] emptyMatrix
          = .returned M →
        (emptyMatrix.resize fourFaces.rows fourFaces.rows).setFromTriplets MIJV = .ok M ∧
        ∀ e : Int, M.coeff e e
          = ∑ p ∈ incidentPairs [0, 1, 2, 3] oneTet.rows oneTet.cols e,
              unitEnv.volume () oneTet p.1 / 4) ∧
      ∃ M, crouzeix_raviart_massmatrix unitEnv () oneTet fourFaces [0, 1, 2, 3] emptyMatrix
        = .returned M) :=
  ⟨(measure_dispatch unitEnv () oneTriangle threeEdges [0, 1, 2] emptyMatrix rfl
      (by decide)).1 rfl,
    (measure_dispatch unitEnv () oneTet fourFaces [0, 1, 2, 3] emptyMatrix rfl
      (by decide)).2 rfl⟩

/-- Counterexample to C11 as stated, in the `double` arithmetic of the code:
one triangle of doubled area `3 * tiny`.  Halving rounds `1.5 * tiny` up to
`2 * tiny`, so `TA[0]` is not `0.5` times the doubled area; dividing by `3`
rounds to `tiny`, so the triplet of slot `0` and the diagonal entry of the
returned matrix are `tiny`, which is neither `doublearea/6` nor the `double`
nearest to it (which is `0`). -/
theorem measure_dispatch_fails_in_double :
    ∃ TA MIJV M, elementMeasure64 threeTinyEnv () oneTriangle oneTriangle.cols = .ok TA ∧
      TA 0 = 2 * tiny ∧
      TA 0 ≠ threeTinyEnv.doublearea () oneTriangle 0 * (1 / 2) ∧
      tripletLoop64 [0, 1, 2] TA oneTriangle.rows oneTriangle.cols
        (List.replicate (oneTriangle.cols * oneTriangle.rows) default) = .ok MIJV ∧
      (∃ t, MIJV[0]? = some t ∧ t.value = tiny ∧
        t.value ≠ threeTinyEnv.doublearea () oneTriangle 0 / 6 ∧
        t.value ≠ roundToDouble (threeTinyEnv.doublearea () oneTriangle 0 / 6)) ∧
      crouzeix_raviart_massmatrix64 threeTinyEnv () oneTriangle threeEdges [0, 1, 2]
        emptyMatrix = .returned M ∧
      M.coeff 0 0 = tiny ∧
      M.coeff 0 0 ≠ threeTinyEnv.doublearea () oneTriangle 0 / 6 := by
  have htp := tiny_pos
  have hTA : ∀ f : Nat,
      roundToDouble (threeTinyEnv.doublearea () oneTriangle f * (1 / 2)) = 2 * tiny :=
    fun _ => roundToDouble_three_halves_tiny
  have hshare : ∀ f : Nat,
      roundToDouble (roundToDouble (threeTinyEnv.doublearea () oneTriangle f * (1 / 2))
        / ((3 : Nat) : ℚ)) = tiny := by
    intro f
    rw [hTA]
    exact roundToDouble_two_thirds_tiny
  have hda : threeTinyEnv.doublearea () oneTriangle 0 = 3 * tiny := rfl
  have hgen : ∀ TA : Nat → ℚ, (∀ f, roundToDouble (TA f / ((3 : Nat) : ℚ)) = tiny) →
      sumAt64 (assembledTriplets64 [0, 1, 2] TA 1 3) 0 0 = tiny := by
    intro TA h
    simp only [sumAt64, assembledTriplets64, List.range_succ, List.range_zero,
      List.nil_append, List.cons_append, List.map_cons, List.map_nil, h]
    simp [List.filter_cons, roundToDouble_tiny]
  have hsum : sumAt64 (assembledTriplets64 [0, 1, 2]
      (fun f => roundToDouble (threeTinyEnv.doublearea () oneTriangle f * (1 / 2)))
      oneTriangle.rows oneTriangle.cols) 0 0 = tiny := hgen _ hshare
  refine ⟨_, _, _, rfl, hTA 0, ?_, tripletLoop64_eq [0, 1, 2] _ (by decide) rfl, ?_,
    returned64_of_valid threeTinyEnv () oneTriangle threeEdges [0, 1, 2] emptyMatrix _
      (by decide) rfl rfl (by decide) (fun _ => rfl), hsum, ?_⟩
  · rw [hTA, hda]
    intro h
    linarith
  · refine ⟨⟨0, 0, roundToDouble (roundToDouble
        (threeTinyEnv.doublearea () oneTriangle (0 % 1) * (1 / 2)) / ((3 : Nat) : ℚ))⟩,
      rfl, hshare _, ?_, ?_⟩
    · show roundToDouble (roundToDouble
        (threeTinyEnv.doublearea () oneTriangle (0 % 1) * (1 / 2)) / ((3 : Nat) : ℚ)) ≠ _
      rw [hshare, hda]
      intro h
      linarith
    · show roundToDouble (roundToDouble
        (threeTinyEnv.doublearea () oneTriangle (0 % 1) * (1 / 2)) / ((3 : Nat) : ℚ)) ≠ _
      rw [hshare, hda]
      have e : 3 * tiny / 6 = tiny / 2 := by ring
      rw [e, roundToDouble_half_tiny]
      exact ne_of_gt htp
  · show sumAt64 _ 0 0 ≠ _
    rw [hsum, hda]
    intro h
    linarith

/-- C12. The full-pipeline entry point is the composition of the collaborators
with the assembly-only entry point: `E` and `EMAP` are the outputs of the
Deduplicator on the Extractor's output, and `M` is what the assembly-only
entry point gives on `(V, F, E, EMAP)`.  Whenever it returns, `EMAP` has
`m*ss` entries and `M` is `|E| × |E|`; and `EMAP` has `m*ss` entries in any
case when the Extractor returns `m*ss` rows and the Deduplicator meets its
contract. -/
theorem full_pipeline_is_composition {Pos : Type} (env : Collaborators Pos)
    (fc : FacetCollaborators) (V : Pos) (F : MatrixXi) (M0 : SparseMatrix) :
    crouzeix_raviart_massmatrix_full env fc V F M0 = computeMassMatrix_spec env fc V F M0 ∧
    (crouzeix_raviart_massmatrix_full env fc V F M0).E
      = (fc.unique_simplices (fc.oriented_facets F)).E ∧
    (crouzeix_raviart_massmatrix_full env fc V F M0).EMAP
      = (fc.unique_simplices (fc.oriented_facets F)).EMAP ∧
    (crouzeix_raviart_massmatrix_full env fc V F M0).result
      = crouzeix_raviart_massmatrix env V F
          (fc.unique_simplices (fc.oriented_facets F)).E
          (fc.unique_simplices (fc.oriented_facets F)).EMAP M0 ∧
    (∀ M, (crouzeix_raviart_massmatrix_full env fc V F M0).result = .returned M →
      (crouzeix_raviart_massmatrix_full env fc V F M0).EMAP.length = F.rows * F.cols ∧
      M.rows = (crouzeix_raviart_massmatrix_full env fc V F M0).E.rows ∧
      M.cols = (crouzeix_raviart_massmatrix_full env fc V F M0).E.rows) ∧
    ((fc.oriented_facets F).rows = F.rows * F.cols →
      IsUniqueSimplices (fc.oriented_facets F) (fc.unique_simplices (fc.oriented_facets F)) →
      (crouzeix_raviart_massmatrix_full env fc V F M0).EMAP.length = F.rows * F.cols) := by
  refine ⟨rfl, rfl, rfl, rfl, ?_, ?_⟩
  · intro M hM
    obtain ⟨_, _, hlen, _, TA, _, rfl⟩ := eq_of_returned env V F _ _ M0 M hM
    exact ⟨hlen, rfl, rfl⟩
  · intro hrows huniq
    show (fc.unique_simplices (fc.oriented_facets F)).EMAP.length = _
    rw [huniq.1, hrows]

/-- Witness for C12: the pipeline on the two triangles `(0,1,2)` and `(2,1,3)`
with the example Extractor and Deduplicator. -/
theorem full_pipeline_is_composition_witness :
    crouzeix_raviart_massmatrix_full unitEnv exampleFacets () twoTriangles emptyMatrix
      = computeMassMatrix_spec unitEnv exampleFacets () twoTriangles emptyMatrix ∧
    (crouzeix_raviart_massmatrix_full unitEnv exampleFacets () twoTriangles emptyMatrix).EMAP
      = [0, 1, 2, 3, 4, 0] ∧
    (crouzeix_raviart_massmatrix_full unitEnv exampleFacets () twoTriangles emptyMatrix).E.rows
      = 5 ∧
    (∀ M, (crouzeix_raviart_massmatrix_full unitEnv exampleFacets () twoTriangles
        emptyMatrix).result = .returned M → M.rows = 5 ∧ M.cols = 5) := by
  have h := full_pipeline_is_composition unitEnv exampleFacets () twoTriangles emptyMatrix
  refine ⟨h.1, by decide, by decide, fun M hM => ?_⟩
  have h5 := h.2.2.2.2.1 M hM
  have hE : (crouzeix_raviart_massmatrix_full unitEnv exampleFacets () twoTriangles
      emptyMatrix).E.rows = 5 := by decide
  rw [hE] at h5
  exact ⟨h5.2.1, h5.2.2⟩

/-- C13. The manifold check matters exactly for triangle meshes.  A triangle
mesh (`ss = 3`) that the Manifold Checker rejects is stopped by the assertion
of line 46 with `M` still what it was; a triangle mesh it accepts goes on to
the later checks, so the outcome does depend on the checker; and for every
other simplex size, `ss = 4` in particular, the outcome is the same whatever
the Manifold Checker would answer. -/
theorem manifold_check_only_for_triangles {Pos : Type} (env : Collaborators Pos) (V : Pos)
    (F E : MatrixXi) (EMAP : VectorXi) (M0 : SparseMatrix) :
    (F.cols = 3 → env.is_edge_manifold F = false →
      crouzeix_raviart_massmatrix env V F E EMAP M0 = .aborted .not_edge_manifold M0) ∧
    (F.cols = 3 → env.is_edge_manifold F = true →
      ∀ M, crouzeix_raviart_massmatrix env V F E EMAP M0 ≠ .aborted .not_edge_manifold M) ∧
    (F.cols ≠ 3 → ∀ checker : MatrixXi → Bool,
      crouzeix_raviart_massmatrix ⟨checker, env.doublearea, env.volume⟩ V F E EMAP M0
        = crouzeix_raviart_massmatrix env V F E EMAP M0) := by
  refine ⟨fun h3 hm => aborted_of_not_manifold env V F E EMAP M0 h3 hm, ?_,
    fun h3 checker => checker_irrelevant_of_not_triangle env V F E EMAP M0 h3 checker⟩
  intro h3 hm M hM
  rcases call_cases env V F E EMAP M0 with
    ⟨_, hf, _⟩ | ⟨_, _, h1⟩ | ⟨_, _, _, h1⟩ | ⟨_, _, _, _, h1⟩ | ⟨_, _, _, _, _, _, h1⟩
  · rw [hm] at hf; cases hf
  · rw [h1] at hM; cases hM
  · rw [h1] at hM; cases hM
  · rw [h1] at hM; cases hM
  · rw [h1] at hM; cases hM

/-- Witness for C13: a rejected triangle is stopped at line 46 with the `1 × 1`
output matrix untouched, while for a tetrahedron the rejecting checker and the
accepting one give the same outcome. -/
theorem manifold_check_only_for_triangles_witness :
    crouzeix_raviart_massmatrix strictEnv () oneTriangle threeEdges [0, 1, 2] sevenMatrix
      = .aborted .not_edge_manifold sevenMatrix ∧
    crouzeix_raviart_massmatrix
        ⟨fun _ => true, strictEnv.doublearea, strictEnv.volume⟩ () oneTet fourFaces
        [0, 1, 2, 3] sevenMatrix
      = crouzeix_raviart_massmatrix strictEnv () oneTet fourFaces [0, 1, 2, 3] sevenMatrix :=
  ⟨(manifold_check_only_for_triangles strictEnv () oneTriangle threeEdges [0, 1, 2]
      sevenMatrix).1 rfl rfl,
    (manifold_check_only_for_triangles strictEnv () oneTet fourFaces [0, 1, 2, 3]
      sevenMatrix).2.2 (by decide) (fun _ => true)⟩

/-- C14. Facet identity ignores orientation in the full pipeline, for an
Extractor that returns `m*ss` directed facets and a Deduplicator that meets
its contract: if the directed facets of the pairs `(f1,c1)` and `(f2,c2)` list
the same vertices in reversed or otherwise permuted order, then
`EMAP[f1+m*c1]` and `EMAP[f2+m*c2]` are the same row of `E`. -/
theorem facet_identity_ignores_orientation {Pos : Type} (env : Collaborators Pos)
    (fc : FacetCollaborators) (V : Pos) (F : MatrixXi) (M0 : SparseMatrix)
    (f1 c1 f2 c2 : Nat)
    (hrows : (fc.oriented_facets F).rows = F.rows * F.cols)
    (huniq : IsUniqueSimplices (fc.oriented_facets F)
      (fc.unique_simplices (fc.oriented_facets F)))
    (hf1 : f1 < F.rows) (hc1 : c1 < F.cols) (hf2 : f2 < F.rows) (hc2 : c2 < F.cols)
    (hsame : ((fc.oriented_facets F).row (f1 + F.rows * c1)).Perm
      ((fc.oriented_facets F).row (f2 + F.rows * c2))) :
    ∃ e : Int, 0 ≤ e ∧ e < ((crouzeix_raviart_massmatrix_full env fc V F M0).E.rows : Int) ∧
      (crouzeix_raviart_massmatrix_full env fc V F M0).EMAP[f1 + F.rows * c1]? = some e ∧
      (crouzeix_raviart_massmatrix_full env fc V F M0).EMAP[f2 + F.rows * c2]? = some e := by
  obtain ⟨hlenE, _, hrange, _, hiff, _⟩ := huniq
  simp only [crouzeix_raviart_massmatrix_full]
  generalize fc.unique_simplices (fc.oriented_facets F) = u at *
  have h1 : f1 + F.rows * c1 < (fc.oriented_facets F).rows := by
    rw [hrows, Nat.mul_comm F.rows F.cols]; exact slot_lt hf1 hc1
  have h2 : f2 + F.rows * c2 < (fc.oriented_facets F).rows := by
    rw [hrows, Nat.mul_comm F.rows F.cols]; exact slot_lt hf2 hc2
  have hl1 : f1 + F.rows * c1 < u.EMAP.length := by rw [hlenE]; exact h1
  have heq := (hiff _ h1 _ h2).2 hsame
  refine ⟨u.EMAP[f1 + F.rows * c1], (hrange _ (List.getElem_mem hl1)).1,
    (hrange _ (List.getElem_mem hl1)).2, List.getElem?_eq_getElem hl1, ?_⟩
  rw [← heq, List.getElem?_eq_getElem hl1]

/-- Witness for C14: in the mesh of the triangles `(0,1,2)` and `(2,1,3)` the
edge `0` of the first is `(1,2)` and the edge `2` of the second is `(2,1)`. -/
theorem facet_identity_ignores_orientation_witness :
    ∃ e : Int, 0 ≤ e ∧
      e < ((crouzeix_raviart_massmatrix_full unitEnv exampleFacets () twoTriangles
        emptyMatrix).E.rows : Int) ∧
      (crouzeix_raviart_massmatrix_full unitEnv exampleFacets () twoTriangles
        emptyMatrix).EMAP[0 + twoTriangles.rows * 0]? = some e ∧
      (crouzeix_raviart_massmatrix_full unitEnv exampleFacets () twoTriangles
        emptyMatrix).EMAP[1 + twoTriangles.rows * 2]? = some e :=
  facet_identity_ignores_orientation unitEnv exampleFacets () twoTriangles emptyMatrix
    0 0 1 2 rfl (by unfold IsUniqueSimplices; decide) (by decide) (by decide) (by decide)
    (by decide) (by decide)

/-- C15. Summation order does not matter.  Two triplet lists that are
permutations of each other build the same matrix (or fail alike), and a built
matrix has at `(i,j)` the sum of the values of all triplets with that row and
column, so duplicates are added up, not overwritten.  In particular, whenever
the assembly returns `M`, feeding the builder any permutation of the triplets
the loop has written gives `M` again. -/
theorem summation_order_irrelevant {Pos : Type} (env : Collaborators Pos) (V : Pos)
    (F E : MatrixXi) (EMAP : VectorXi) (M0 M1 : SparseMatrix) (ts ts' : List Triplet)
    (hperm : ts.Perm ts') :
    M1.setFromTriplets ts = M1.setFromTriplets ts' ∧
    (∀ M', M1.setFromTriplets ts = .ok M' → ∀ i j : Int,
      M'.coeff i j
        = ((ts.filter (fun t => decide (t.row = i) && decide (t.col = j))).map
            Triplet.value).sum) ∧
    (∀ M, crouzeix_raviart_massmatrix env V F E EMAP M0 = .returned M →
      ∃ TA MIJV, elementMeasure env V F F.cols = .ok TA ∧
        tripletLoop EMAP TA F.rows F.cols (List.replicate (F.cols * F.rows) default)
          = .ok MIJV ∧
        ∀ us : List Triplet, us.Perm MIJV →
          (M0.resize E.rows E.rows).setFromTriplets us = .ok M) := by
  refine ⟨setFromTriplets_perm M1 hperm, ?_, ?_⟩
  · intro M' hM' i j
    unfold SparseMatrix.setFromTriplets at hM'
    split at hM'
    · cases hM'; rfl
    · cases hM'
  · intro M hM
    obtain ⟨_, _, hlen, hrange, TA, hTA, rfl⟩ := eq_of_returned env V F E EMAP M0 M hM
    refine ⟨TA, _, hTA, tripletLoop_eq EMAP TA hlen, ?_⟩
    intro us hus
    rw [setFromTriplets_perm _ hus]
    have hall := all_inRange_assembledTriplets EMAP TA hlen hrange
    unfold assembledTriplets at hall
    simp only [SparseMatrix.setFromTriplets, SparseMatrix.resize, hall, if_true,
      assembledTriplets]

/-- Witness for C15: two contributions at `(0,0)`, in either order, and the
single triangle of area `1`. -/
theorem summation_order_irrelevant_witness :
    sevenMatrix.setFromTriplets [⟨0, 0, 1⟩, ⟨0, 0, 3⟩] =
        sevenMatrix.setFromTriplets [⟨0, 0, 3⟩, ⟨0, 0, 1⟩] ∧
    (∀ M', sevenMatrix.setFromTriplets [⟨0, 0, 1⟩, ⟨0, 0, 3⟩] = .ok M' → ∀ i j : Int,
      M'.coeff i j
        = (([(⟨0, 0, 1⟩ : Triplet), ⟨0, 0, 3⟩].filter
            (fun t => decide (t.row = i) && decide (t.col = j))).map Triplet.value).sum) ∧
    (∀ M, crouzeix_raviart_massmatrix unitEnv () oneTriangle threeEdges [0, 1, 2] emptyMatrix
        = .returned M →
      ∃ TA MIJV, elementMeasure unitEnv () oneTriangle oneTriangle.cols = .ok TA ∧
        tripletLoop [0, 1, 2] TA oneTriangle.rows oneTriangle.cols
          (List.replicate (oneTriangle.cols * oneTriangle.rows) default) = .ok MIJV ∧
        ∀ us : List Triplet, us.Perm MIJV →
          (emptyMatrix.resize threeEdges.rows threeEdges.rows).setFromTriplets us = .ok M) :=
  summation_order_irrelevant unitEnv () oneTriangle threeEdges [0, 1, 2] emptyMatrix
    sevenMatrix [⟨0, 0, 1⟩, ⟨0, 0, 3⟩] [⟨0, 0, 3⟩, ⟨0, 0, 1⟩] (List.Perm.swap _ _ _)

/-- C18. Element-order invariance.  Take a valid input with measures `TA` and
map `EMAP`, a permutation `p` of the element indices `[0,m)`, and a second
input with the same `m`, `ss` and `E` whose measures and map are
`TA'[f] = TA[p f]` and `EMAP'[f+m*c] = EMAP[p f + m*c]`.  Whenever the two
calls return, they return the same matrix; and they do return when the
assertion of line 46 passes for both. -/
theorem element_order_invariance {Pos : Type} (env env' : Collaborators Pos) (V V' : Pos)
    (F F' E : MatrixXi) (EMAP EMAP' : VectorXi) (M0 : SparseMatrix) (TA TA' : Nat → ℚ)
    (p : Nat → Nat)
    (hss : F.cols = 3 ∨ F.cols = 4)
    (hrows : F'.rows = F.rows) (hcols : F'.cols = F.cols)
    (hTA : elementMeasure env V F F.cols = .ok TA)
    (hTA' : elementMeasure env' V' F' F'.cols = .ok TA')
    (hlen : EMAP.length = F.rows * F.cols)
    (hlen' : EMAP'.length = F.rows * F.cols)
    (hrange : ∀ x ∈ EMAP, 0 ≤ x ∧ x < (E.rows : Int))
    (hp_lt : ∀ f, f < F.rows → p f < F.rows)
    (hp_inj : ∀ f, f < F.rows → ∀ f', f' < F.rows → p f = p f' → f = f')
    (hTAp : ∀ f, f < F.rows → TA' f = TA (p f))
    (hperm : ∀ f, f < F.rows → ∀ c, c < F.cols →
      EMAP'[f + F.rows * c]? = EMAP[p f + F.rows * c]?) :
    (∀ M M', crouzeix_raviart_massmatrix env V F E EMAP M0 = .returned M →
      crouzeix_raviart_massmatrix env' V' F' E EMAP' M0 = .returned M' → M' = M) ∧
    ((F.cols = 3 → env.is_edge_manifold F = true) →
      (F'.cols = 3 → env'.is_edge_manifold F' = true) →
      ∃ M, crouzeix_raviart_massmatrix env V F E EMAP M0 = .returned M ∧
        crouzeix_raviart_massmatrix env' V' F' E EMAP' M0 = .returned M) := by
  have _ := hss
  have hp_inj2 : ∀ f f', f < F.rows → f' < F.rows → p f = p f' → f = f' :=
    fun f f' hf hf' h => hp_inj f hf f' hf' h
  have hrange' : ∀ x ∈ EMAP', 0 ≤ x ∧ x < (E.rows : Int) :=
    range_of_permuted EMAP EMAP' p hlen hlen' hp_lt hperm hrange
  have hlenF' : EMAP'.length = F'.rows * F'.cols := by rw [hrows, hcols]; exact hlen'
  have hsame : sumAt (assembledTriplets EMAP' TA' F'.rows F'.cols)
      = sumAt (assembledTriplets EMAP TA F.rows F.cols) := by
    rw [hrows, hcols]
    exact sumAt_assembled_permuted EMAP EMAP' TA TA' p hlen hlen' hp_lt hp_inj2 hTAp hperm
  constructor
  · intro M M' hM hM'
    obtain ⟨_, _, _, _, TA2, hTA2, rfl⟩ := eq_of_returned env V F E EMAP M0 M hM
    obtain ⟨_, _, _, _, TA3, hTA3, rfl⟩ := eq_of_returned env' V' F' E EMAP' M0 M' hM'
    have hEq : TA2 = TA := by rw [hTA] at hTA2; cases hTA2; rfl
    have hEq' : TA3 = TA' := by rw [hTA'] at hTA3; cases hTA3; rfl
    subst hEq hEq'
    rw [hsame]
  · intro hman hman'
    refine ⟨_, returned_of_valid env V F E EMAP M0 TA hTA hlen hrange hman, ?_⟩
    rw [returned_of_valid env' V' F' E EMAP' M0 TA' hTA' hlenF' hrange' hman', hsame]

/-- Witness for C18: the two triangles of `twoTriangles` listed in the other
order, with doubled areas `2` and `4`. -/
theorem element_order_invariance_witness :
    (∀ M M', crouzeix_raviart_massmatrix twoAreasEnv () twoTriangles fiveEdges
        [0, 1, 1, 2, 3, 4] emptyMatrix = .returned M →
      crouzeix_raviart_massmatrix swappedAreasEnv () twoTriangles fiveEdges
        [1, 0, 2, 1, 4, 3] emptyMatrix = .returned M' → M' = M) ∧
    ((twoTriangles.cols = 3 → twoAreasEnv.is_edge_manifold twoTriangles = true) →
      (twoTriangles.cols = 3 → swappedAreasEnv.is_edge_manifold twoTriangles = true) →
      ∃ M, crouzeix_raviart_massmatrix twoAreasEnv () twoTriangles fiveEdges
          [0, 1, 1, 2, 3, 4] emptyMatrix = .returned M ∧
        crouzeix_raviart_massmatrix swappedAreasEnv () twoTriangles fiveEdges
          [1, 0, 2, 1, 4, 3] emptyMatrix = .returned M) :=
  element_order_invariance twoAreasEnv swappedAreasEnv () () twoTriangles twoTriangles
    fiveEdges [0, 1, 1, 2, 3, 4] [1, 0, 2, 1, 4, 3] emptyMatrix
    (fun f => (if f = 0 then 2 else 4) * (1 / 2)) (fun f => (if f = 0 then 4 else 2) * (1 / 2))
    (fun f => 1 - f) (Or.inl rfl) rfl rfl rfl rfl rfl rfl (by decide) (by decide) (by decide)
    (by
      intro f hf
      have hf2 : f < 2 := hf
      interval_cases f <;> simp)
    (by decide)

/-- C19. Linearity in the measures.  Fix `ss`, `m`, `E` and a valid `EMAP`,
and take three geometries whose measures satisfy `TA3 = a*TA1 + b*TA2`.
Whenever the three calls return `M1`, `M2`, `M3`, these have the same shape
and `M3 = a*M1 + b*M2` entry by entry.  In particular an element `f0` with
`TA1[f0] = 0` contributes nothing: every diagonal entry of `M1` is the sum of
the shares of the other elements alone.  The calls do return when the
assertion of line 46 passes. -/
theorem linear_in_measures {Pos : Type} (env : Collaborators Pos) (V1 V2 V3 : Pos)
    (F E : MatrixXi) (EMAP : VectorXi) (M0 : SparseMatrix) (TA1 TA2 TA3 : Nat → ℚ)
    (a b : ℚ)
    (hss : F.cols = 3 ∨ F.cols = 4)
    (hTA1 : elementMeasure env V1 F F.cols = .ok TA1)
    (hTA2 : elementMeasure env V2 F F.cols = .ok TA2)
    (hTA3 : elementMeasure env V3 F F.cols = .ok TA3)
    (hlen : EMAP.length = F.rows * F.cols)
    (hrange : ∀ x ∈ EMAP, 0 ≤ x ∧ x < (E.rows : Int))
    (hlin : ∀ f, f < F.rows → TA3 f = a * TA1 f + b * TA2 f) :
    (∀ M1 M2 M3, crouzeix_raviart_massmatrix env V1 F E EMAP M0 = .returned M1 →
      crouzeix_raviart_massmatrix env V2 F E EMAP M0 = .returned M2 →
      crouzeix_raviart_massmatrix env V3 F E EMAP M0 = .returned M3 →
      M3.rows = M1.rows ∧ M3.cols = M1.cols ∧ M3.rows = M2.rows ∧ M3.cols = M2.cols ∧
      ∀ i j : Int, M3.coeff i j = a * M1.coeff i j + b * M2.coeff i j) ∧
    (∀ M1, crouzeix_raviart_massmatrix env V1 F E EMAP M0 = .returned M1 →
      ∀ f0, f0 < F.rows → TA1 f0 = 0 → ∀ e : Int,
        M1.coeff e e
          = ∑ p ∈ (incidentPairs EMAP F.rows F.cols e).filter (fun p => p.1 ≠ f0),
              TA1 p.1 / (F.cols : ℚ)) ∧
    ((F.cols = 3 → env.is_edge_manifold F = true) →
      ∃ M1 M2 M3, crouzeix_raviart_massmatrix env V1 F E EMAP M0 = .returned M1 ∧
        crouzeix_raviart_massmatrix env V2 F E EMAP M0 = .returned M2 ∧
        crouzeix_raviart_massmatrix env V3 F E EMAP M0 = .returned M3) := by
  have _ := hss
  refine ⟨?_, ?_, ?_⟩
  · intro M1 M2 M3 h1 h2 h3
    obtain ⟨_, _, _, _, T1, hT1, rfl⟩ := eq_of_returned env V1 F E EMAP M0 M1 h1
    obtain ⟨_, _, _, _, T2, hT2, rfl⟩ := eq_of_returned env V2 F E EMAP M0 M2 h2
    obtain ⟨_, _, _, _, T3, hT3, rfl⟩ := eq_of_returned env V3 F E EMAP M0 M3 h3
    have e1 : T1 = TA1 := by rw [hTA1] at hT1; cases hT1; rfl
    have e2 : T2 = TA2 := by rw [hTA2] at hT2; cases hT2; rfl
    have e3 : T3 = TA3 := by rw [hTA3] at hT3; cases hT3; rfl
    subst e1 e2 e3
    exact ⟨rfl, rfl, rfl, rfl, fun i j => sumAt_assembled_linear EMAP T1 T2 T3 a b hlen hlin i j⟩
  · intro M1 h1 f0 _ hzero e
    obtain ⟨_, _, _, _, T1, hT1, rfl⟩ := eq_of_returned env V1 F E EMAP M0 M1 h1
    have e1 : T1 = TA1 := by rw [hTA1] at hT1; cases hT1; rfl
    subst e1
    show sumAt _ _ _ = _
    rw [sumAt_assembled_diag EMAP T1 hlen, sum_incidentPairs_skip_zero EMAP T1 _ _ e hzero,
      sum_incidentPairs]
  · intro hman
    exact ⟨_, _, _, returned_of_valid env V1 F E EMAP M0 TA1 hTA1 hlen hrange hman,
      returned_of_valid env V2 F E EMAP M0 TA2 hTA2 hlen hrange hman,
      returned_of_valid env V3 F E EMAP M0 TA3 hTA3 hlen hrange hman⟩

/-- Witness for C19: two triangles, the first of measure zero, at the scales
`1`, `2` and `3*1 + 5*2`. -/
theorem linear_in_measures_witness :
    (∀ M1 M2 M3, crouzeix_raviart_massmatrix scaleEnv 1 twoTriangles fiveEdges
        [0, 1, 1, 2, 3, 4] emptyMatrix = .returned M1 →
      crouzeix_raviart_massmatrix scaleEnv 2 twoTriangles fiveEdges
        [0, 1, 1, 2, 3, 4] emptyMatrix = .returned M2 →
      crouzeix_raviart_massmatrix scaleEnv 13 twoTriangles fiveEdges
        [0, 1, 1, 2, 3, 4] emptyMatrix = .returned M3 →
      M3.rows = M1.rows ∧ M3.cols = M1.cols ∧ M3.rows = M2.rows ∧ M3.cols = M2.cols ∧
      ∀ i j : Int, M3.coeff i j = 3 * M1.coeff i j + 5 * M2.coeff i j) ∧
    (∀ M1, crouzeix_raviart_massmatrix scaleEnv 1 twoTriangles fiveEdges
        [0, 1, 1, 2, 3, 4] emptyMatrix = .returned M1 →
      ∀ f0, f0 < twoTriangles.rows →
        (fun f : Nat => (1 : ℚ) * (f : ℚ) * (1 / 2)) f0 = 0 → ∀ e : Int,
        M1.coeff e e
          = ∑ p ∈ (incidentPairs [0, 1, 1, 2, 3, 4] twoTriangles.rows twoTriangles.cols
              e).filter (fun p => p.1 ≠ f0),
              (fun f : Nat => (1 : ℚ) * (f : ℚ) * (1 / 2)) p.1
                / (twoTriangles.cols : ℚ)) ∧
    ((twoTriangles.cols = 3 → scaleEnv.is_edge_manifold twoTriangles = true) →
      ∃ M1 M2 M3, crouzeix_raviart_massmatrix scaleEnv 1 twoTriangles fiveEdges
          [0, 1, 1, 2, 3, 4] emptyMatrix = .returned M1 ∧
        crouzeix_raviart_massmatrix scaleEnv 2 twoTriangles fiveEdges
          [0, 1, 1, 2, 3, 4] emptyMatrix = .returned M2 ∧
        crouzeix_raviart_massmatrix scaleEnv 13 twoTriangles fiveEdges
          [0, 1, 1, 2, 3, 4] emptyMatrix = .returned M3) :=
  linear_in_measures scaleEnv 1 2 13 twoTriangles fiveEdges [0, 1, 1, 2, 3, 4] emptyMatrix
    (fun f : Nat => (1 : ℚ) * (f : ℚ) * (1 / 2))
    (fun f : Nat => (2 : ℚ) * (f : ℚ) * (1 / 2))
    (fun f : Nat => (13 : ℚ) * (f : ℚ) * (1 / 2)) 3 5
    (Or.inl rfl) rfl rfl rfl rfl (by decide) (by intro f _; ring)

end igl
